import Mathlib

/-
Verification development for the IPTV stream extractor
(`src/extract_streams.py`).  The Python source is shallowly embedded:
pure helpers become Lean functions, the stateful main loop becomes
explicit state passing, file writes become explicit operation traces,
and code that can raise becomes `Except`-valued.  All definitions are
executable so that concrete runs can be evaluated with `decide`.

Modelling conventions:
- Python dicts used as string-keyed maps become association lists with
  first-match lookup and in-place replacement on insert.
- Python strings are modelled by `String`/`List Char`; the inputs of
  interest are ASCII, and `toLower`/`toUpper`/`isWhitespace`/digits are
  used in their ASCII meaning, matching the Python behaviour on the
  ASCII range.
- The regular expressions appearing in the source are small and fixed;
  each one is embedded as an explicit executable matcher with Python
  `re` semantics (including `\b` word boundaries, lazy `.*?`, greedy
  `\s*`, and left-to-right alternation).
-/

set_option autoImplicit false

/-! ### Generic string and list helpers -/

/-- `startsWithL pat xs`: `pat` occurs at the head of `xs`. -/
def startsWithL (pat : List Char) : List Char → Bool :=
  fun xs =>
    match pat, xs with
    | [], _ => true
    | _ :: _, [] => false
    | p :: ps, x :: rest => p == x && startsWithL ps rest

/-- Substring test on character lists (Python `in` on strings). -/
def containsSeq (pat : List Char) : List Char → Bool
  | [] => startsWithL pat []
  | c :: t => startsWithL pat (c :: t) || containsSeq pat t

/-- Substring test on strings (Python `pat in hay`). -/
def containsStr (hay pat : String) : Bool := containsSeq pat.data hay.data

/-- `endsWithL pat xs`: `pat` occurs at the end of `xs`. -/
def endsWithL (pat xs : List Char) : Bool := startsWithL pat.reverse xs.reverse

/-- Python `.lower()` (ASCII range). -/
def lowerL (cs : List Char) : List Char := cs.map Char.toLower

/-- Python `.upper()` (ASCII range). -/
def upperL (cs : List Char) : List Char := cs.map Char.toUpper

/-- Python `.strip()`: drop whitespace from both ends. -/
def trimL (cs : List Char) : List Char :=
  ((cs.dropWhile Char.isWhitespace).reverse.dropWhile Char.isWhitespace).reverse

/-- Python `str.split(sep)` for a one-character separator: splits at
every occurrence, keeping empty pieces. -/
def splitOnChar (sep : Char) : List Char → List (List Char)
  | [] => [[]]
  | c :: rest =>
    if c = sep then [] :: splitOnChar sep rest
    else
      match splitOnChar sep rest with
      | [] => [[c]]
      | l :: ls => (c :: l) :: ls

/-- First-match association-list lookup (Python dict read). -/
def alookup {β : Type} (m : List (String × β)) (k : String) : Option β :=
  match m with
  | [] => none
  | (k', v) :: rest => if k' = k then some v else alookup rest k

/-- Association-list update (Python dict assignment `m[k] = v`). -/
def aupdate {β : Type} (m : List (String × β)) (k : String) (v : β) : List (String × β) :=
  match m with
  | [] => [(k, v)]
  | (k', v') :: rest => if k' = k then (k, v) :: rest else (k', v') :: aupdate rest k v

/-! ### C1: file-write protocol model

`save_stream_progress`, `save_playlist_progress` and `write_m3u_output`
perform a fixed sequence of filesystem operations.  Each routine is
embedded as the trace of operations it performs, parameterised by which
step fails (a failing serialisation/write leaves a torn file behind; the
`except` handlers of the source then run).  A tiny filesystem semantics
interprets traces; a reader observing the run at any point sees the
state after a prefix of the trace. -/

/-- Abstract content of a file relative to one save operation. -/
inductive FContent where
  | old
  | fresh
  | torn
  | absent
  deriving DecidableEq, Repr

/-- One filesystem operation performed by a save routine. -/
inductive FsOp where
  | writeFull (p : String)
  | writeTorn (p : String)
  | renameOp (src dst : String)
  | removeOp (p : String)
  deriving DecidableEq, Repr

def stream_progress_file : String := "stream_check_progress.json"

def playlist_progress_file : String := "playlist_progress.json"

def final_output_file : String := "IPTV.m3u8"

/-- Trace of `save_stream_progress` (src lines 931-941): dump to
`<path>.tmp`, `os.replace` onto the target; on any exception remove the
temp file.  `dumpOk` = the `json.dump` succeeded, `replaceOk` = the
`os.replace` succeeded. -/
def save_stream_progress_ops (dumpOk replaceOk : Bool) : List FsOp :=
  if dumpOk then
    if replaceOk then
      [.writeFull (stream_progress_file ++ ".tmp"),
       .renameOp (stream_progress_file ++ ".tmp") stream_progress_file]
    else
      [.writeFull (stream_progress_file ++ ".tmp"),
       .removeOp (stream_progress_file ++ ".tmp")]
  else
    [.writeTorn (stream_progress_file ++ ".tmp"),
     .removeOp (stream_progress_file ++ ".tmp")]

/-- Trace of `save_playlist_progress` (src lines 972-983): the target
file itself is opened for writing; a failed dump leaves it torn. -/
def save_playlist_progress_ops (dumpOk : Bool) : List FsOp :=
  if dumpOk then [.writeFull playlist_progress_file]
  else [.writeTorn playlist_progress_file]

/-- Trace of `write_m3u_output` (src lines 893-929): the output file
itself is opened for writing; a failed write leaves it torn. -/
def write_m3u_output_ops (writeOk : Bool) : List FsOp :=
  if writeOk then [.writeFull final_output_file]
  else [.writeTorn final_output_file]

/-- Filesystem state: content of each path. -/
def Fsys : Type := String → FContent

/-- Before a save runs, every file holds its previous complete contents. -/
def initialFsys : Fsys := fun _ => .old

def applyFsOp (fs : Fsys) : FsOp → Fsys
  | .writeFull p => fun q => if q = p then .fresh else fs q
  | .writeTorn p => fun q => if q = p then .torn else fs q
  | .renameOp src dst => fun q => if q = dst then fs src else if q = src then .absent else fs q
  | .removeOp p => fun q => if q = p then .absent else fs q

def runFsOps (fs : Fsys) : List FsOp → Fsys
  | [] => fs
  | op :: rest => runFsOps (applyFsOp fs op) rest

/-- What the claim asserts of a family of save traces for a target
path: at every observation point (after any prefix of any trace) the
target file holds either its complete old contents or its complete new
contents. -/
def atomicSaveTraces (trs : List (List FsOp)) (target : String) : Prop :=
  ∀ tr ∈ trs, ∀ n : Nat,
    runFsOps initialFsys (List.take n tr) target = .old ∨
    runFsOps initialFsys (List.take n tr) target = .fresh

def allStreamSaveTraces : List (List FsOp) :=
  [save_stream_progress_ops true true, save_stream_progress_ops true false,
   save_stream_progress_ops false true, save_stream_progress_ops false false]

def allPlaylistSaveTraces : List (List FsOp) :=
  [save_playlist_progress_ops true, save_playlist_progress_ops false]

def allM3uSaveTraces : List (List FsOp) :=
  [write_m3u_output_ops true, write_m3u_output_ops false]

/-- Formalisation of claim C1 as stated: all three persisted files are
written with the atomic temp-file protocol. -/
def claimC1 : Prop :=
  atomicSaveTraces allStreamSaveTraces stream_progress_file ∧
  atomicSaveTraces allPlaylistSaveTraces playlist_progress_file ∧
  atomicSaveTraces allM3uSaveTraces final_output_file

/-! ### Data model -/

/-- Attributes parsed from an `#EXTINF` metadata line. -/
structure ChannelInfo where
  tvg_id : String := ""
  tvg_name : String := ""
  tvg_logo : String := ""
  group_title : String := ""
  channel_name : String := ""
  deriving DecidableEq, Repr

/-- One candidate stream entry produced by the playlist parser
(the dicts built at src line 741). -/
structure StreamRef where
  extinf : String
  url : String
  info : ChannelInfo
  deriving DecidableEq, Repr

/-- A stream-check result (the dicts built at src lines 829-855).
Fields that only some of the two dict shapes carry, or that are read
with `dict.get`, are `Option`-valued; `none` models an absent key. -/
structure StreamResult where
  status : String
  extinf : String := ""
  url : String := ""
  info : ChannelInfo := {}
  codec : String := ""
  video_bitrate : Option String := none
  resolution : Option String := none
  fps : String := ""
  audio_info : String := ""
  country : String := ""
  channel_name : String := ""
  group_title : String := ""
  checked_at : String := ""
  reason : Option String := none
  final_name : Option String := none
  deriving DecidableEq, Repr

instance : Inhabited StreamResult := ⟨{ status := "" }⟩

/-- The counters of `global_stats` that the claims are about. -/
structure Stats where
  total_streams : Nat := 0
  checked : Nat := 0
  working : Nat := 0
  failed : Nat := 0
  filtered : Nat := 0
  deriving DecidableEq, Repr

/-- Run configuration (the globals set from the CLI flags). -/
structure Config where
  enable_filters : Bool := true
  include_radio : Bool := false
  include_adult : Bool := false
  stream_timeout : Nat := 10
  deriving DecidableEq, Repr

/-- The external probing backend (`IPTV_checker`).  Each operation may
raise, modelled by `Except`. -/
structure Backend where
  check_channel_status : String → Nat → Nat → Except String String
  get_detailed_stream_info : String → Except String (String × String × String × String)
  get_audio_bitrate : String → Except String String

/-! ### C9 country resolver: `extract_country_from_tvg_id`,
`extract_country_code` (src lines 467-551) -/

/-- TLD table of `extract_country_from_tvg_id` (src lines 530-535). -/
def tld_country_map : List (String × String) :=
  [("BR", "BR"), ("US", "US"), ("UK", "UK"), ("CA", "CA"),
   ("AR", "AR"), ("MX", "MX"), ("ES", "ES"), ("FR", "FR"),
   ("DE", "DE"), ("IT", "IT"), ("PT", "PT"), ("CL", "CL"),
   ("CO", "CO"), ("PE", "PE"), ("VE", "VE"), ("EC", "EC")]

/-- Leading country-code table of `extract_country_from_tvg_id`
(src lines 541-545). -/
def country_pre_codes : List (String × String) :=
  [("br", "BR"), ("us", "US"), ("uk", "UK"), ("ca", "CA"),
   ("ar", "AR"), ("mx", "MX"), ("es", "ES"), ("fr", "FR"),
   ("de", "DE"), ("it", "IT"), ("pt", "PT"), ("cl", "CL")]

/-- The loop at src lines 547-549: the first code whose lowercase form
followed by `#`, `-` or `_` starts the lowered tvg id. -/
def scanPreCodes (ps : List (String × String)) (lower : List Char) : Option String :=
  match ps with
  | [] => none
  | (p, c) :: rest =>
    if startsWithL (p ++ "#").data lower || startsWithL (p ++ "-").data lower ||
        startsWithL (p ++ "_").data lower then some c
    else scanPreCodes rest lower

/-- `extract_country_from_tvg_id` (src lines 517-551). -/
def extract_country_from_tvg_id (tvg_id : String) : Option String :=
  if tvg_id = "" then none
  else
    match (if tvg_id.data.any (fun c => c = '.') then
             alookup tld_country_map
               (String.mk (upperL ((splitOnChar '.' tvg_id.data).getLastD [])))
           else none) with
    | some c => some c
    | none => scanPreCodes country_pre_codes (lowerL tvg_id.data)

/-- Per-keyword test of `extract_country_code` (src lines 483-489 and
507-513): codes of up to three characters must occur as standalone
words of the space-padded text; longer keywords match as substrings. -/
def keywordHit (keyword text : String) : Bool :=
  if keyword.data.length ≤ 3 then
    containsStr (" " ++ text ++ " ") (" " ++ keyword ++ " ") ||
      startsWithL (keyword ++ " ").data text.data ||
      endsWithL (" " ++ keyword).data text.data
  else containsStr text keyword

/-- Priority table of `extract_country_code` (src lines 473-477). -/
def priority_checks : List (String × List String) :=
  [("US", ["USA", "UNITED STATES", "AMERICA"]),
   ("UK", ["UNITED KINGDOM", "UK", "GB", "ENGLAND", "BRITISH"]),
   ("INT", ["INTERNATIONAL", "INT"])]

/-- Secondary table of `extract_country_code` (src lines 493-503). -/
def other_countries : List (String × List String) :=
  [("AR", ["ARGENTINA", "AR"]), ("BR", ["BRAZIL", "BRASIL", "BR"]),
   ("CA", ["CANADA", "CA"]), ("DE", ["GERMANY", "DEUTSCHLAND", "DE"]),
   ("ES", ["SPAIN", "ESPAÑA", "ES"]), ("FR", ["FRANCE", "FR"]),
   ("IT", ["ITALY", "ITALIA", "IT"]), ("MX", ["MEXICO", "MX"]),
   ("PT", ["PORTUGAL", "PT"])]

/-- First table entry one of whose keywords hits the text. -/
def scanCountries (table : List (String × List String)) (text : String) : Option String :=
  match table with
  | [] => none
  | (code, kws) :: rest =>
    if kws.any (fun kw => keywordHit kw text) then some code
    else scanCountries rest text

/-- `extract_country_code` (src lines 467-515). -/
def extract_country_code (group_title channel_name : String) : String :=
  let text := String.mk (upperL (group_title ++ " " ++ channel_name).data)
  match scanCountries priority_checks text with
  | some c => c
  | none =>
    match scanCountries other_countries text with
    | some c => c
    | none => "Unknown"

/-- The country chosen by `check_stream_worker` (src lines 823-827):
the tvg-id resolver first, the keyword scan as fallback.  (Python
truthiness: every code the first resolver can return is a non-empty
string, so `if not country` is exactly the `none` test.) -/
def inferCountry (info : ChannelInfo) : String :=
  match extract_country_from_tvg_id info.tvg_id with
  | some c => c
  | none => extract_country_code info.group_title info.channel_name

/-! ### `parse_channel_info` (src lines 553-575) -/

/-- `[^"]*"` after an attribute tag: the capture up to the next double
quote, failing (like the regex) when no closing quote follows. -/
def takeToQuote : List Char → Option (List Char)
  | [] => none
  | c :: rest =>
    if c = '"' then some []
    else (takeToQuote rest).map (fun cs => c :: cs)

/-- `re.search` for `tag([^"]*)"`: scan for the first position where
the tag, a capture and a closing quote all match. -/
def findCapture (tag : List Char) : List Char → Option (List Char)
  | [] => none
  | c :: rest =>
    match (if startsWithL tag (c :: rest) then
             takeToQuote (List.drop tag.length (c :: rest))
           else none) with
    | some cap => some cap
    | none => findCapture tag rest

/-- The characters after the last comma (Python `rsplit(',', 1)[1]`). -/
def afterLastComma (cs : List Char) : List Char :=
  (cs.reverse.takeWhile (fun c => c ≠ ',')).reverse

/-- `parse_channel_info` (src lines 553-575). -/
def parse_channel_info (extinf_line : String) : ChannelInfo :=
  let capture := fun (tag : String) =>
    match findCapture tag.data extinf_line.data with
    | some cs => String.mk cs
    | none => ""
  { tvg_id := capture "tvg-id=\"",
    tvg_name := capture "tvg-name=\"",
    tvg_logo := capture "tvg-logo=\"",
    group_title := capture "group-title=\"",
    channel_name :=
      if extinf_line.data.any (fun c => c = ',') then
        String.mk (trimL (afterLastComma extinf_line.data))
      else "" }

/-! ### C4: the playlist parser of `download_and_parse_playlist`
(src lines 726-746) -/

/-- The `while` loop at src lines 731-744, with the line index made
explicit.  `i` is the loop variable; the body advances it by one, or by
two when an `#EXTINF` line was seen.  `fuel` makes the recursion
structural: the index strictly increases each iteration, so
`lines.size - i` steps always suffice. -/
def parseLinesWhileF (lines : List String) : Nat → Nat → List StreamRef
  | _, 0 => []
  | i, fuel + 1 =>
    if i < lines.length then
      let line := String.mk (trimL (lines.getD i "").data)
      if startsWithL "#EXTINF".data line.data then
        if i + 1 < lines.length then
          let stream_url := String.mk (trimL (lines.getD (i + 1) "").data)
          if stream_url.data ≠ [] && !startsWithL "#".data stream_url.data then
            { extinf := line, url := stream_url, info := parse_channel_info line } ::
              parseLinesWhileF lines (i + 2) fuel
          else parseLinesWhileF lines (i + 2) fuel
        else []
      else parseLinesWhileF lines (i + 1) fuel
    else []

def parseLinesWhile (lines : List String) (i : Nat) : List StreamRef :=
  parseLinesWhileF lines i (lines.length - i)

/-- The parsing part of `download_and_parse_playlist` (src lines
723-746): split the decoded body on newlines and run the scan loop. -/
def download_and_parse_playlist (content : String) : List StreamRef :=
  parseLinesWhile ((splitOnChar '\n' content.data).map String.mk) 0

/-- Structural restatement of the loop: an `#EXTINF` line consumes the
immediately following line, which becomes the URL exactly when it is
non-empty and not a comment; otherwise the entry is dropped. -/
def parseLinesImmediate : List String → List StreamRef
  | [] => []
  | a :: rest =>
    if startsWithL "#EXTINF".data (trimL a.data) then
      match rest with
      | [] => []
      | b :: rest2 =>
        let stream_url := String.mk (trimL b.data)
        if stream_url.data ≠ [] && !startsWithL "#".data stream_url.data then
          { extinf := String.mk (trimL a.data), url := stream_url,
            info := parse_channel_info (String.mk (trimL a.data)) } ::
            parseLinesImmediate rest2
        else parseLinesImmediate rest2
    else parseLinesImmediate rest

mutual

/-- The parser claim C4 describes: after an `#EXTINF` line, skip
comments and blank lines and take the next remaining line as the URL. -/
def parseLinesClaim : List String → List StreamRef
  | [] => []
  | a :: rest =>
    if startsWithL "#EXTINF".data (trimL a.data) then
      claimFindUrl (String.mk (trimL a.data)) rest
    else parseLinesClaim rest

/-- Skip non-URL lines after a metadata line, as claim C4 reads. -/
def claimFindUrl (meta : String) : List String → List StreamRef
  | [] => []
  | b :: rest =>
    let stream_url := String.mk (trimL b.data)
    if stream_url.data ≠ [] && !startsWithL "#".data stream_url.data then
      { extinf := meta, url := stream_url, info := parse_channel_info meta } ::
        parseLinesClaim rest
    else claimFindUrl meta rest

end

/-! ### `extract_bitrate_value` (src lines 577-581) -/

/-- `re.search(r'(\d+)', s)`: the first maximal run of digits. -/
def firstDigitRun : List Char → Option (List Char)
  | [] => none
  | c :: rest =>
    if c.isDigit then some (c :: rest.takeWhile Char.isDigit)
    else firstDigitRun rest

def digitsToNat (ds : List Char) : Nat :=
  ds.foldl (fun n c => n * 10 + (c.toNat - '0'.toNat)) 0

/-- `extract_bitrate_value` (src lines 577-581). -/
def extract_bitrate_value (bitrate_str : String) : Nat :=
  if bitrate_str = "" || bitrate_str = "Unknown" || bitrate_str = "N/A" then 0
  else
    match firstDigitRun bitrate_str.data with
    | some ds => digitsToNat ds
    | none => 0

/-! ### C7: content filter — `build_filter_patterns` and
`should_filter_stream` (src lines 264-301)

Each compiled pattern has the shape `\b( alt | alt | ... )\b` where an
alternative is a sequence of literal runs, `\s*` gaps and an optional
character.  The atoms below embed exactly those constructs; a search
succeeds when some alternative matches at some position with a regex
word boundary on both sides. -/

/-- One atom of an alternative inside a filter pattern. -/
inductive RAtom where
  | lit (s : List Char)
  | wsStar
  | optChar (c : Char)
  deriving DecidableEq, Repr

/-- Python `\w` on the ASCII range: letters, digits, underscore. -/
def isWordChar (c : Char) : Bool := c.isAlphanum || c = '_'

/-- The character class at position `i` of the text (out of range is
non-word, as at the ends of the string). -/
def wordAt (t : List Char) (i : Nat) : Bool := isWordChar (t.getD i ' ')

/-- Python `\b` at position `i`: exactly one neighbour is a word
character. -/
def boundaryAt (t : List Char) (i : Nat) : Bool :=
  (if i = 0 then false else wordAt t (i - 1)) != wordAt t i

/-- Consume a literal at the head of the text. -/
def litTake (s : List Char) (t : List Char) : Option (List Char) :=
  match s, t with
  | [], t => some t
  | _ :: _, [] => none
  | c :: cs, x :: xs => if c = x then litTake cs xs else none

/-- All remainders `\s*` can leave: drop any number of leading
whitespace characters. -/
def wsSuffixes : List Char → List (List Char)
  | [] => [[]]
  | c :: rest => (c :: rest) :: (if c.isWhitespace then wsSuffixes rest else [])

/-- All remainders an atom can leave when matched at the head. -/
def atomEnds : RAtom → List Char → List (List Char)
  | .lit s, t =>
    match litTake s t with
    | some r => [r]
    | none => []
  | .wsStar, t => wsSuffixes t
  | .optChar c, t =>
    t :: (match t with
          | x :: xs => if x = c then [xs] else []
          | [] => [])

/-- All remainders an alternative (sequence of atoms) can leave. -/
def altEnds : List RAtom → List Char → List (List Char)
  | [], t => [t]
  | a :: as, t => ((atomEnds a t).map (altEnds as)).flatten

/-- `re.search` of `\b(alts)\b` starting at position `i`. -/
def altHitsAt (al : List RAtom) (t : List Char) (i : Nat) : Bool :=
  boundaryAt t i &&
    (altEnds al (t.drop i)).any (fun r => boundaryAt t (t.length - r.length))

/-- `re.search` of `\b(alts)\b` over the whole text. -/
def patSearch (alts : List (List RAtom)) (t : List Char) : Bool :=
  (List.range (t.length + 1)).any (fun i => alts.any (fun al => altHitsAt al t i))

/-- `\b(movie|film|cinema|pelicula|filme|cine)\b` (src line 274). -/
def moviesPat : List (List RAtom) :=
  [[.lit "movie".data], [.lit "film".data], [.lit "cinema".data],
   [.lit "pelicula".data], [.lit "filme".data], [.lit "cine".data]]

/-- `\b(series|tv\s*show|season|episode|episodio|temporada|capitulo)\b`
(src line 276). -/
def seriesPat : List (List RAtom) :=
  [[.lit "series".data], [.lit "tv".data, .wsStar, .lit "show".data],
   [.lit "season".data], [.lit "episode".data], [.lit "episodio".data],
   [.lit "temporada".data], [.lit "capitulo".data]]

/-- `\b(24/?7|24h|24hs|24\s*h|24\s*hs|24\s*hour|non-stop|nonstop)\b`
(src line 278). -/
def twentyFourPat : List (List RAtom) :=
  [[.lit "24".data, .optChar '/', .lit "7".data], [.lit "24h".data],
   [.lit "24hs".data], [.lit "24".data, .wsStar, .lit "h".data],
   [.lit "24".data, .wsStar, .lit "hs".data],
   [.lit "24".data, .wsStar, .lit "hour".data],
   [.lit "non-stop".data], [.lit "nonstop".data]]

/-- `\b(vod|on\s*demand|catch\s*up|replay)\b` (src line 280). -/
def vodPat : List (List RAtom) :=
  [[.lit "vod".data], [.lit "on".data, .wsStar, .lit "demand".data],
   [.lit "catch".data, .wsStar, .lit "up".data], [.lit "replay".data]]

/-- `\b(xxx|adult|porn|sexy|\+18|18\+|erotic|playboy|hustler)\b`
(src line 285). -/
def adultPat : List (List RAtom) :=
  [[.lit "xxx".data], [.lit "adult".data], [.lit "porn".data],
   [.lit "sexy".data], [.lit "+18".data], [.lit "18+".data],
   [.lit "erotic".data], [.lit "playboy".data], [.lit "hustler".data]]

/-- `\b(radio|fm)\b` (src line 289). -/
def radioPat : List (List RAtom) :=
  [[.lit "radio".data], [.lit "fm".data]]

/-- `build_filter_patterns` (src lines 264-291). -/
def build_filter_patterns (cfg : Config) : List (List (List RAtom)) :=
  if !cfg.enable_filters then []
  else
    [moviesPat, seriesPat, twentyFourPat, vodPat] ++
      (if !cfg.include_adult then [adultPat] else []) ++
      (if !cfg.include_radio then [radioPat] else [])

/-- `should_filter_stream` (src lines 293-301). -/
def should_filter_stream (cfg : Config) (channel_name group_title : String) : Bool :=
  if !cfg.enable_filters then false
  else
    (build_filter_patterns cfg).any (fun pat =>
      patSearch pat (lowerL (channel_name ++ " " ++ group_title).data))

/-! ### C2/C3: `check_stream_worker` (src lines 791-864)

The worker is a state transformer over the shared stream-progress map
and the stats counters.  A backend exception makes the whole call
return `Except.error`, leaving both unchanged — in the source the
exception propagates out of the worker before the counter updates and
before the `stream_progress[stream_key] = result` store. -/

/-- The memoization key (src line 799). -/
def streamKey (s : StreamRef) : String := s.info.channel_name ++ "_" ++ s.url

/-- The paired counter update of a working check
(src lines 805-808 / 844-847). -/
def statsCheckWorking (st : Stats) : Stats :=
  { st with checked := st.checked + 1, working := st.working + 1 }

/-- The paired counter update of a failed check
(src lines 805-810 / 856-858). -/
def statsCheckFailed (st : Stats) : Stats :=
  { st with checked := st.checked + 1, failed := st.failed + 1 }

deriving instance DecidableEq for Except

/-- Result of one worker call: the returned value (or the propagated
exception), the stream-progress map and stats after the call, the
number of `check_channel_status` probes, and the number of backend
invocations of any kind. -/
structure WorkerOut where
  result : Except String (Option StreamResult)
  progress : List (String × StreamResult)
  stats : Stats
  probes : Nat
  calls : Nat
  deriving DecidableEq, Repr

/-- `check_stream_worker` (src lines 791-864). -/
def check_stream_worker (cfg : Config) (B : Backend) (available : Bool)
    (s : StreamRef) (prog : List (String × StreamResult)) (st : Stats)
    (now : String) : WorkerOut :=
  match available with
  | false => ⟨.ok none, prog, st, 0, 0⟩
  | true =>
    let key := streamKey s
    match alookup prog key with
    | some r =>
      let st' := if r.status = "working" then statsCheckWorking st else statsCheckFailed st
      ⟨.ok (some r), prog, st', 0, 0⟩
    | none =>
      match B.check_channel_status s.url cfg.stream_timeout (cfg.stream_timeout + 5) with
      | .error e => ⟨.error e, prog, st, 1, 1⟩
      | .ok status =>
        if status = "Alive" then
          match B.get_detailed_stream_info s.url with
          | .error e => ⟨.error e, prog, st, 1, 2⟩
          | .ok (codec_name, video_bitrate, resolution, fps) =>
            match B.get_audio_bitrate s.url with
            | .error e => ⟨.error e, prog, st, 1, 3⟩
            | .ok audio_info =>
              let country := inferCountry s.info
              let r : StreamResult :=
                { status := "working", extinf := s.extinf, url := s.url,
                  info := s.info, codec := codec_name,
                  video_bitrate := some video_bitrate,
                  resolution := some resolution, fps := fps,
                  audio_info := audio_info, country := country,
                  channel_name := s.info.channel_name,
                  group_title := s.info.group_title, checked_at := now }
              ⟨.ok (some r), aupdate prog key r, statsCheckWorking st, 1, 3⟩
        else
          let r : StreamResult :=
            { status := "failed", reason := some "Stream not working",
              channel_name := s.info.channel_name, url := s.url,
              checked_at := now }
          ⟨.ok (some r), aupdate prog key r, statsCheckFailed st, 1, 1⟩

/-! ### C6: the per-playlist section of the main loop
(src lines 1229-1246 and the drain loop at 1284-1328)

For the counters, a run is sequential: within one playlist the filter
loop and the `total_streams` update run on the main thread before any
probe of that playlist is submitted, the drain completes before the
next playlist is consumed, and every individual counter update is
atomic under `stats_lock`.  The model therefore records the stats value
after every counter update; probe updates of one wave may interleave in
any order, which the model captures by quantifying over the per-stream
outcomes (`Backend` behaviour) and keeping each update atomic. -/

/-- `filtered` update (src lines 1233-1236). -/
def statsAddFiltered (st : Stats) : Stats := { st with filtered := st.filtered + 1 }

/-- `total_streams` update (src line 1242). -/
def statsAddTotal (st : Stats) (n : Nat) : Stats :=
  { st with total_streams := st.total_streams + n }

/-- Output of the filter loop: stats afterwards, the streams kept for
checking, and the stats value after each `filtered` update. -/
structure FilterOut where
  stats : Stats
  kept : List StreamRef
  states : List Stats
  deriving Repr

/-- The filter loop (src lines 1229-1238). -/
def filterPhase (cfg : Config) (st : Stats) : List StreamRef → FilterOut
  | [] => ⟨st, [], []⟩
  | s :: rest =>
    if should_filter_stream cfg s.info.channel_name s.info.group_title then
      let st' := statsAddFiltered st
      let out := filterPhase cfg st' rest
      ⟨out.stats, out.kept, st' :: out.states⟩
    else
      let out := filterPhase cfg st rest
      ⟨out.stats, s :: out.kept, out.states⟩

/-- Output of one drained wave: progress map and stats afterwards, the
stats value after each check update, the keys that were actually
probed, and the working results appended to the accumulator. -/
structure CheckOut where
  progress : List (String × StreamResult)
  stats : Stats
  states : List Stats
  probedKeys : List String
  workingAdded : List StreamResult
  deriving Repr

/-- The accumulator append of the drain loop (src lines 1297-1300):
a working result is appended to `working_streams`. -/
def drainAppend (res : Option StreamResult) : List StreamResult :=
  match res with
  | some r => if r.status = "working" then [r] else []
  | none => []

/-- The wave submit-and-drain loop (src lines 1284-1308): each stream
goes through `check_stream_worker`; an exception from a worker is
swallowed by the `except ... pass` of the drain loop, so it changes
neither the progress map nor the counters. -/
def checkPhase (cfg : Config) (B : Backend) (available : Bool) (now : String)
    (prog : List (String × StreamResult)) (st : Stats) :
    List StreamRef → CheckOut
  | [] => ⟨prog, st, [], [], []⟩
  | s :: rest =>
    let w := check_stream_worker cfg B available s prog st now
    match w.result with
    | .error _ => checkPhase cfg B available now prog st rest
    | .ok res =>
      let out := checkPhase cfg B available now w.progress w.stats rest
      { out with
        states := w.stats :: out.states,
        probedKeys := (if w.probes = 1 then [streamKey s] else []) ++ out.probedKeys,
        workingAdded := drainAppend res ++ out.workingAdded }

/-- Output of a whole run (for the counter claims): final progress map
and stats, the stats values recorded during filter loops, and the stats
values recorded from each playlist's `total_streams` update onwards. -/
structure RunOut where
  progress : List (String × StreamResult)
  stats : Stats
  filterStates : List Stats
  mainStates : List Stats
  probedKeys : List String
  deriving Repr

/-- One playlist (src lines 1229-1246 then 1284-1308): filter loop,
`total_streams` update, drained probe wave. -/
def processPlaylist (cfg : Config) (B : Backend) (available : Bool) (now : String)
    (prog : List (String × StreamResult)) (st : Stats)
    (streams : List StreamRef) : RunOut :=
  let f := filterPhase cfg st streams
  let st2 := statsAddTotal f.stats streams.length
  let c := checkPhase cfg B available now prog st2 f.kept
  ⟨c.progress, c.stats, f.states, st2 :: c.states, c.probedKeys⟩

/-- A run over a list of playlists, consumed sequentially. -/
def processRun (cfg : Config) (B : Backend) (available : Bool) (now : String)
    (prog : List (String × StreamResult)) (st : Stats) :
    List (List StreamRef) → RunOut
  | [] => ⟨prog, st, [], [], []⟩
  | pl :: rest =>
    let p := processPlaylist cfg B available now prog st pl
    let r := processRun cfg B available now p.progress p.stats rest
    ⟨r.progress, r.stats, p.filterStates ++ r.filterStates,
     p.mainStates ++ r.mainStates, p.probedKeys ++ r.probedKeys⟩

/-! ### C5/C10: `organize_streams_by_country_and_bitrate`
(src lines 866-891)

The canonical base name applies two global `re.sub` passes to the
channel name: `\s*\(.*?\)\s*` and then `\s*(HD|FHD|4K|UHD|SD)\s*`
(case-insensitive).  Both are embedded as leftmost-first scan-and-drop
passes.  In such a pattern the leading `\s*` must be followed by the
parenthesis/tag at the first non-space character, the lazy `.*?` stops
at the first `)` (and `.` does not cross a newline), and the trailing
`\s*` is greedy. -/

/-- Drop to just after the first `)` of the lazy group, failing at a
newline or at the end of the text (regex `.` excludes newlines). -/
def dropToClose : List Char → Option (List Char)
  | [] => none
  | c :: rest =>
    if c = ')' then some rest
    else if c = '\n' then none
    else dropToClose rest

/-- Try `\s*\(.*?\)\s*` at the head of the text; on success return the
remainder after the whole match. -/
def parenAt (cs : List Char) : Option (List Char) :=
  match cs.dropWhile Char.isWhitespace with
  | '(' :: rest =>
    match dropToClose rest with
    | some rem => some (rem.dropWhile Char.isWhitespace)
    | none => none
  | _ => none

/-- Global sub of `\s*\(.*?\)\s*`, scanning left to right.  Each match
consumes at least the two parentheses, so `cs.length` steps of fuel
always suffice. -/
def subParensF : Nat → List Char → List Char
  | 0, cs => cs
  | _, [] => []
  | fuel + 1, c :: cs =>
    match parenAt (c :: cs) with
    | some rest => subParensF fuel rest
    | none => c :: subParensF fuel cs

def subParens (cs : List Char) : List Char := subParensF cs.length cs

/-- Case-insensitive literal consume (the tag patterns are compiled
with `re.IGNORECASE`). -/
def litTakeCI (s t : List Char) : Option (List Char) :=
  match s, t with
  | [], t => some t
  | _ :: _, [] => none
  | c :: cs, x :: xs => if c.toLower = x.toLower then litTakeCI cs xs else none

/-- The alternation `(HD|FHD|4K|UHD|SD)` in source order. -/
def qualTags : List (List Char) :=
  ["HD".data, "FHD".data, "4K".data, "UHD".data, "SD".data]

/-- First alternative that consumes the head of the text. -/
def firstTag : List (List Char) → List Char → Option (List Char)
  | [], _ => none
  | tag :: more, t =>
    match litTakeCI tag t with
    | some r => some r
    | none => firstTag more t

/-- Try `\s*(HD|FHD|4K|UHD|SD)\s*` at the head of the text. -/
def qualAt (cs : List Char) : Option (List Char) :=
  match firstTag qualTags (cs.dropWhile Char.isWhitespace) with
  | some rest => some (rest.dropWhile Char.isWhitespace)
  | none => none

/-- Global sub of `\s*(HD|FHD|4K|UHD|SD)\s*`, scanning left to right. -/
def subQualF : Nat → List Char → List Char
  | 0, cs => cs
  | _, [] => []
  | fuel + 1, c :: cs =>
    match qualAt (c :: cs) with
    | some rest => subQualF fuel rest
    | none => c :: subQualF fuel cs

def subQual (cs : List Char) : List Char := subQualF cs.length cs

/-- The `base_name` computation (src lines 876-878). -/
def canonicalBase (channel_name : String) : String :=
  String.mk (trimL (subQual (subParens channel_name.data)))

/-- The sort key (src line 883): `extract_bitrate_value` of
`s.get('video_bitrate', '0')`. -/
def brValOf (r : StreamResult) : Nat :=
  extract_bitrate_value (r.video_bitrate.getD "0")

/-- `defaultdict(list)` grouping step: append `x` to the group of `k`,
creating the group at the end on first use. -/
def addToGroups {α : Type} (g : List (String × List α)) (k : String) (x : α) :
    List (String × List α) :=
  match g with
  | [] => [(k, [x])]
  | (k', l) :: rest =>
    if k' = k then (k', l ++ [x]) :: rest
    else (k', l) :: addToGroups rest k x

/-- `defaultdict(list)` grouping of a whole list, in iteration order
(src lines 867-870 and 874-879). -/
def groupByKey {α : Type} (key : α → String) (xs : List α) : List (String × List α) :=
  xs.foldl (fun g x => addToGroups g (key x) x) []

/-- Reading a group (empty for an unused key). -/
def lookupGroup {α : Type} (g : List (String × List α)) (k : String) : List α :=
  match g with
  | [] => []
  | (k', l) :: rest => if k' = k then l else lookupGroup rest k

/-- Python string `<`: lexicographic on code points. -/
def lexLt : List Char → List Char → Bool
  | [], [] => false
  | [], _ :: _ => true
  | _ :: _, [] => false
  | c :: cs, d :: ds => if c = d then lexLt cs ds else decide (c < d)

def strLt (a b : String) : Bool := lexLt a.data b.data

/-- Insertion step of `sorted()` over strings. -/
def insertAsc (x : String) : List String → List String
  | [] => [x]
  | y :: ys => if strLt x y then x :: y :: ys else y :: insertAsc x ys

/-- `sorted(keys)` (src line 881). -/
def sortStrings (l : List String) : List String :=
  l.foldl (fun acc x => insertAsc x acc) []

/-- Insertion step of the stable descending sort: a new element goes
after all elements with a key at least as large. -/
def insertDesc {α : Type} (key : α → Nat) (x : α) : List α → List α
  | [] => [x]
  | y :: ys => if key y < key x then x :: y :: ys else y :: insertDesc key x ys

/-- `list.sort(key=..., reverse=True)` (src line 883): Python's sort is
stable, and `reverse=True` keeps equal keys in original order. -/
def sortDescStable {α : Type} (key : α → Nat) (xs : List α) : List α :=
  xs.foldl (fun acc x => insertDesc key x acc) []

/-- The label of the rank-`idx` variant (src lines 884-888). -/
def labelName (bn : String) (idx : Nat) : String :=
  if idx = 0 then bn else bn ++ " backup " ++ toString idx

/-- One name group: sort by bitrate descending and attach the label of
each rank (src lines 882-888). -/
def rankGroup {α : Type} (brOf : α → Nat) (bn : String) (g : List α) :
    List (α × String) :=
  (sortDescStable brOf g).enum.map (fun p => (p.2, labelName bn p.1))

/-- One country bucket (src lines 874-889): group by base name, walk
the base names in sorted order, rank each group. -/
def organizeCountry {α : Type} (nameOf : α → String) (brOf : α → Nat)
    (streams : List α) : List (α × String) :=
  let by_name := groupByKey (fun x => canonicalBase (nameOf x)) streams
  ((sortStrings (by_name.map Prod.fst)).map
    (fun bn => rankGroup brOf bn (lookupGroup by_name bn))).flatten

/-- The full organizer skeleton (src lines 866-891), generic in the
element type so that it can be instantiated both with records (value
behaviour) and with heap references (the in-place `final_name`
assignment of C10).  It returns every element paired with the final
name the source assigns to it, bucketed by country. -/
def organizeCore {α : Type} (countryOf nameOf : α → String) (brOf : α → Nat)
    (xs : List α) : List (String × List (α × String)) :=
  (groupByKey countryOf xs).map (fun p => (p.1, organizeCountry nameOf brOf p.2))

/-- `organize_streams_by_country_and_bitrate` as a value-level function
on records: each stream of the output carries the `final_name` the
source stores into it. -/
def organize_streams_by_country_and_bitrate (ws : List StreamResult) :
    List (String × List StreamResult) :=
  (organizeCore (fun r => r.country) (fun r => r.info.channel_name) brValOf ws).map
    (fun p => (p.1, p.2.map (fun q => { q.1 with final_name := some q.2 })))

/-! ### C10: the in-place effect of the organizer

The working-stream accumulator holds the same dict objects that the
progress map holds.  The heap model: a store of records, the
accumulator a list of store indices, the progress map a map from
StreamKeys to store indices.  `organize_refs` performs the source's
`stream['final_name'] = ...` writes in source order; all reads feeding
the grouping and sorting happen on fields never written. -/

/-- The `final_name` writes of one organizer call, in source order
(country buckets in insertion order, base names sorted, ranks in
order). -/
def organizeRefWrites (h : List StreamResult) (refs : List Nat) :
    List (Nat × String) :=
  ((organizeCore (fun i => (h.getD i default).country)
      (fun i => (h.getD i default).info.channel_name)
      (fun i => brValOf (h.getD i default)) refs).map
    (fun p => p.2)).flatten

/-- One `stream['final_name'] = nm` store. -/
def setFinalName (h : List StreamResult) (i : Nat) (nm : String) :
    List StreamResult :=
  h.set i { h.getD i default with final_name := some nm }

/-- The organizer acting on the heap through the accumulator's
references. -/
def organize_refs (h : List StreamResult) (refs : List Nat) :
    List StreamResult :=
  (organizeRefWrites h refs).foldl (fun h' p => setFinalName h' p.1 p.2) h

/-- `json.dump(stream_progress, ...)` under the heap model: the
persisted stream map resolves every reference through the heap. -/
def serializeProgress (pm : List (String × Nat)) (h : List StreamResult) :
    List (String × StreamResult) :=
  pm.map (fun p => (p.1, h.getD p.2 default))

/-! ### C9: `load_playlist_progress` (src lines 953-970) -/

/-- A persisted playlist record (the dicts stored at src lines
1257-1262, 1271-1276, 1337-1345 and synthesized at 965-966). -/
structure PlaylistRecord where
  status : String
  timestamp : String
  streams_found : Option Nat := none
  streams_filtered : Option Nat := none
  streams_checked : Option Nat := none
  working_streams : Option Nat := none
  reason : Option String := none
  error : Option String := none
  url : Option String := none
  deriving DecidableEq, Repr

/-- The on-disk playlist-progress file as the loader sees it: absent,
unreadable/corrupt, or a parsed JSON object of which the loader reads
the keys `playlists`, `processed_playlists` and `last_updated`
(each possibly missing). -/
inductive PlaylistFileData where
  | absent
  | corrupt
  | parsed (playlists : Option (List (String × PlaylistRecord)))
      (processed_playlists : Option (List String))
      (last_updated : Option String)
  deriving Repr

/-- `load_playlist_progress` (src lines 953-970).  `reprocess` is the
`REPROCESS_PLAYLISTS` flag; absence, the flag and a parse failure all
yield the empty store. -/
def load_playlist_progress (reprocess : Bool) (file : PlaylistFileData) :
    List (String × PlaylistRecord) :=
  if reprocess then []
  else
    match file with
    | .absent => []
    | .corrupt => []
    | .parsed playlists processed_playlists last_updated =>
      match playlists with
      | some m => m
      | none =>
        match processed_playlists with
        | some urls =>
          urls.map (fun url =>
            (url, { status := "processed", timestamp := last_updated.getD "" }))
        | none => []

/-! ### Claim-side predicates for C7

Claim C7 reads the filter as keyword containment: the lowercased text
contains some enabled keyword as a word-boundary-anchored (standalone)
occurrence, explicitly including `+18` and `18+`.  `claimFilterC7`
formalises that reading with the keyword lists of the specification;
`AtomM`/`AltM` give a declarative account of the source's actual
pattern matching, used for the amended equivalence. -/

/-- The keyword families as the claim and the specification list them
(spec §4.3), with the configurable families gated by the flags. -/
def claimKeywordFamilies (cfg : Config) : List String :=
  ["movie", "film", "cinema", "pelicula", "filme", "cine",
   "series", "tv show", "season", "episode", "episodio", "temporada", "capitulo",
   "24/7", "24h", "24hs", "24 hour", "non-stop", "nonstop",
   "vod", "on demand", "catch up", "replay"] ++
  (if !cfg.include_adult then
    ["xxx", "adult", "porn", "sexy", "+18", "18+", "erotic", "playboy", "hustler"]
   else []) ++
  (if !cfg.include_radio then ["radio", "fm"] else [])

/-- A word-boundary-anchored occurrence in the claim's sense: the
keyword occurs and is not adjacent to a word character on either
side. -/
def standaloneOccurs (t kw : List Char) : Bool :=
  (List.range (t.length + 1)).any (fun i =>
    startsWithL kw (t.drop i) &&
    (i == 0 || !wordAt t (i - 1)) &&
    !wordAt t (i + kw.length))

/-- Claim C7's filter: some enabled keyword occurs standalone in the
lowercased concatenation; always false with filters disabled. -/
def claimFilterC7 (cfg : Config) (channel_name group_title : String) : Bool :=
  cfg.enable_filters &&
    (claimKeywordFamilies cfg).any (fun kw =>
      standaloneOccurs (lowerL (channel_name ++ " " ++ group_title).data) kw.data)

/-- Declarative matching of one atom: `AtomM a t r` holds when the atom
can consume a front segment of `t` leaving `r`. -/
inductive AtomM : RAtom → List Char → List Char → Prop where
  | lit (s r : List Char) : AtomM (.lit s) (s ++ r) r
  | wsNil (t : List Char) : AtomM .wsStar t t
  | wsCons {c : Char} {t r : List Char} :
      c.isWhitespace = true → AtomM .wsStar t r → AtomM .wsStar (c :: t) r
  | optNone (c : Char) (t : List Char) : AtomM (.optChar c) t t
  | optSome (c : Char) (t : List Char) : AtomM (.optChar c) (c :: t) t

/-- Declarative matching of an alternative (sequence of atoms). -/
inductive AltM : List RAtom → List Char → List Char → Prop where
  | nil (t : List Char) : AltM [] t t
  | cons {a : RAtom} {as : List RAtom} {t m r : List Char} :
      AtomM a t m → AltM as m r → AltM (a :: as) t r

/-- Declarative reading of `re.search` on `\b(alts)\b`: some
alternative matches somewhere with a word boundary on both sides. -/
def BoundaryAnchoredHit (alts : List (List RAtom)) (t : List Char) : Prop :=
  ∃ al ∈ alts, ∃ i ≤ t.length, ∃ r,
    AltM al (t.drop i) r ∧
    boundaryAt t i = true ∧ boundaryAt t (t.length - r.length) = true

/-- The amended reading of C7: filters enabled and some enabled
compiled pattern has a `\b`-anchored match in the lowercased
concatenation. -/
def FilterSpecAmended (cfg : Config) (channel_name group_title : String) : Prop :=
  cfg.enable_filters = true ∧
    ∃ pat ∈ build_filter_patterns cfg,
      BoundaryAnchoredHit pat (lowerL (channel_name ++ " " ++ group_title).data)

/-! ### Claim-level propositions and concrete fixtures -/

/-- A backend none of whose operations ever raises. -/
def TotalBackend (B : Backend) : Prop :=
  (∀ u a b, ∃ v, B.check_channel_status u a b = .ok v) ∧
  (∀ u, ∃ v, B.get_detailed_stream_info u = .ok v) ∧
  (∀ u, ∃ v, B.get_audio_bitrate u = .ok v)

/-- The two monotonicity statements of claim C6, over every run from a
fresh stats record: the counter equation at the end, and the
inequality at every recorded state (after every counter update). -/
def runAllStates (out : RunOut) : List Stats :=
  out.filterStates ++ out.mainStates

def claimC6 : Prop :=
  ∀ (cfg : Config) (B : Backend) (now : String) (playlists : List (List StreamRef)),
    (processRun cfg B true now [] {} playlists).stats.checked =
      (processRun cfg B true now [] {} playlists).stats.working +
        (processRun cfg B true now [] {} playlists).stats.failed ∧
    ∀ s ∈ runAllStates (processRun cfg B true now [] {} playlists),
      s.filtered + s.checked ≤ s.total_streams

/-- Claim C3 as stated: a backend exception on an unmemoized key still
yields a stored `failed` result. -/
def claimC3 : Prop :=
  ∀ (cfg : Config) (B : Backend) (s : StreamRef)
    (prog : List (String × StreamResult)) (st : Stats) (now e : String),
    alookup prog (streamKey s) = none →
    B.check_channel_status s.url cfg.stream_timeout (cfg.stream_timeout + 5) = .error e →
    ∃ r : StreamResult, r.status = "failed" ∧
      (check_stream_worker cfg B true s prog st now).result = .ok (some r) ∧
      alookup (check_stream_worker cfg B true s prog st now).progress (streamKey s) = some r

/-- Claim C4 as stated: the loop parser equals the
skip-comments-and-blanks parser. -/
def claimC4 : Prop :=
  ∀ content : String,
    download_and_parse_playlist content =
      parseLinesClaim ((splitOnChar '\n' content.data).map String.mk)

/-- Claim C7 as stated: the filter equals standalone keyword
containment over the claimed keyword families. -/
def claimC7 : Prop :=
  ∀ (cfg : Config) (channel_name group_title : String),
    should_filter_stream cfg channel_name group_title =
      claimFilterC7 cfg channel_name group_title

/-- Claim C9 as stated: absence yields the empty store, the current
form yields its map, and every legacy entry is upgraded with
`status = processed` and an empty timestamp. -/
def claimC9 : Prop :=
  load_playlist_progress false .absent = [] ∧
  (∀ (m : List (String × PlaylistRecord)) (procs : Option (List String))
      (lu : Option String),
    load_playlist_progress false (.parsed (some m) procs lu) = m) ∧
  (∀ (urls : List String) (lu : Option String),
    load_playlist_progress false (.parsed none (some urls) lu) =
      urls.map (fun u => (u, { status := "processed", timestamp := "" })))

/-- A backend whose every operation raises. -/
def backendBoom : Backend :=
  { check_channel_status := fun _ _ _ => .error "boom",
    get_detailed_stream_info := fun _ => .error "boom",
    get_audio_bitrate := fun _ => .error "boom" }

/-- A backend that reports every stream dead, without raising. -/
def backendDead : Backend :=
  { check_channel_status := fun _ _ _ => .ok "Dead",
    get_detailed_stream_info := fun _ => .ok ("h264", "5000 kb/s", "1920x1080", "25"),
    get_audio_bitrate := fun _ => .ok "128 kb/s" }

/-- A backend that reports every stream alive, without raising. -/
def backendAlive : Backend :=
  { check_channel_status := fun _ _ _ => .ok "Alive",
    get_detailed_stream_info := fun _ => .ok ("h264", "5000 kb/s", "1920x1080", "25"),
    get_audio_bitrate := fun _ => .ok "128 kb/s" }

def cnnStream : StreamRef :=
  { extinf := "#EXTINF:-1,CNN", url := "http://x/cnn",
    info := { channel_name := "CNN" } }

/-- A stream the default filter rejects (`\bmovie\b` matches). -/
def movieStream : StreamRef :=
  { extinf := "#EXTINF:-1,Movie Channel", url := "http://x/movie",
    info := { channel_name := "Movie Channel" } }

/-- A sample memoized failed result under key `CNN_http://x/cnn`. -/
def cnnFailedResult : StreamResult :=
  { status := "failed", reason := some "Stream not working",
    channel_name := "CNN", url := "http://x/cnn", checked_at := "t0" }

/-- The second concrete ChannelInfo of claim C8. -/
def usaSportsInfo : ChannelInfo :=
  { group_title := "USA Sports", channel_name := "Paramount" }

/-- The first concrete ChannelInfo of claim C8. -/
def globoInfo : ChannelInfo :=
  { tvg_id := "globo.br", group_title := "NOTICIAS", channel_name := "Globo" }

/-- A sample working record for the organizer fixtures. -/
def espnRecord : StreamResult :=
  { status := "working", info := { channel_name := "ESPN HD" },
    video_bitrate := some "5000 kb/s", country := "US",
    channel_name := "ESPN HD", url := "http://x/espn" }

/-! ## Theorems

Shared helper lemmas first, then for each claim its theorem (and, where
the claim is corrected, its counterexample), in claim order. -/

theorem alookup_aupdate_self {β : Type} (m : List (String × β)) (k : String) (v : β) :
    alookup (aupdate m k v) k = some v := by
  induction m with
  | nil => simp [aupdate, alookup]
  | cons p rest ih =>
    by_cases h : p.1 = k
    · simp [aupdate, alookup, h]
    · simp [aupdate, alookup, h, ih]

theorem alookup_aupdate_ne {β : Type} (m : List (String × β)) (k k' : String) (v : β)
    (h : k' ≠ k) : alookup (aupdate m k v) k' = alookup m k' := by
  induction m with
  | nil =>
    simp [aupdate, alookup]
    exact fun hh => h hh.symm
  | cons p rest ih =>
    by_cases hp : p.1 = k
    · subst hp
      by_cases hk : p.1 = k'
      · exact absurd hk.symm h
      · simp [aupdate, alookup, hk, h]
    · by_cases hk : p.1 = k'
      · simp [aupdate, alookup, hp, hk, h]
      · simp [aupdate, alookup, hp, hk, ih]

theorem checkWorker_error_frame (cfg : Config) (B : Backend) (s : StreamRef)
    (prog : List (String × StreamResult)) (st : Stats) (now e : String)
    (hres : (check_stream_worker cfg B true s prog st now).result = Except.error e) :
    (check_stream_worker cfg B true s prog st now).progress = prog ∧
    (check_stream_worker cfg B true s prog st now).stats = st ∧
    (check_stream_worker cfg B true s prog st now).probes = 1 := by
  revert hres
  unfold check_stream_worker
  dsimp only
  cases hk : alookup prog (streamKey s) with
  | some r => intro hres; simp at hres
  | none =>
    dsimp only
    cases hc : B.check_channel_status s.url cfg.stream_timeout (cfg.stream_timeout + 5) with
    | error e' => intro _; exact ⟨rfl, rfl, rfl⟩
    | ok status =>
      dsimp only
      by_cases hst : status = "Alive"
      · rw [if_pos hst]
        cases hdet : B.get_detailed_stream_info s.url with
        | error e' => intro _; exact ⟨rfl, rfl, rfl⟩
        | ok v =>
          obtain ⟨cn, vb, rs, fp⟩ := v
          dsimp only
          cases ha : B.get_audio_bitrate s.url with
          | error e' => intro _; exact ⟨rfl, rfl, rfl⟩
          | ok ai => intro hres; simp at hres
      · rw [if_neg hst]
        intro hres; simp at hres

theorem checkWorker_memo (cfg : Config) (B : Backend) (s : StreamRef)
    (prog : List (String × StreamResult)) (st : Stats) (now : String) (r : StreamResult)
    (hk : alookup prog (streamKey s) = some r) :
    check_stream_worker cfg B true s prog st now =
      { result := .ok (some r), progress := prog,
        stats := if r.status = "working" then statsCheckWorking st else statsCheckFailed st,
        probes := 0, calls := 0 } := by
  unfold check_stream_worker
  dsimp only
  rw [hk]

theorem checkWorker_miss_probes (cfg : Config) (B : Backend) (s : StreamRef)
    (prog : List (String × StreamResult)) (st : Stats) (now : String)
    (hk : alookup prog (streamKey s) = none) :
    (check_stream_worker cfg B true s prog st now).probes = 1 := by
  unfold check_stream_worker
  dsimp only
  rw [hk]
  cases hc : B.check_channel_status s.url cfg.stream_timeout (cfg.stream_timeout + 5) with
  | error e' => rfl
  | ok status =>
    dsimp only
    by_cases hst : status = "Alive"
    · rw [if_pos hst]
      cases hdet : B.get_detailed_stream_info s.url with
      | error e' => rfl
      | ok v =>
        obtain ⟨cn, vb, rs, fp⟩ := v
        dsimp only
        cases ha : B.get_audio_bitrate s.url with
        | error e' => rfl
        | ok ai => rfl
    · rw [if_neg hst]

theorem checkWorker_miss_stores (cfg : Config) (B : Backend) (s : StreamRef)
    (prog : List (String × StreamResult)) (st : Stats) (now : String)
    (hk : alookup prog (streamKey s) = none) :
    ∀ r : StreamResult, (check_stream_worker cfg B true s prog st now).result = .ok (some r) →
      (check_stream_worker cfg B true s prog st now).progress =
        aupdate prog (streamKey s) r := by
  unfold check_stream_worker
  dsimp only
  rw [hk]
  cases hc : B.check_channel_status s.url cfg.stream_timeout (cfg.stream_timeout + 5) with
  | error e' => intro r hres; simp at hres
  | ok status =>
    dsimp only
    by_cases hst : status = "Alive"
    · rw [if_pos hst]
      cases hdet : B.get_detailed_stream_info s.url with
      | error e' => intro r hres; simp at hres
      | ok v =>
        obtain ⟨cn, vb, rs, fp⟩ := v
        dsimp only
        cases ha : B.get_audio_bitrate s.url with
        | error e' => intro r hres; simp at hres
        | ok ai =>
          intro r hres
          simp only [Except.ok.injEq, Option.some.injEq] at hres
          rw [← hres]
    · rw [if_neg hst]
      intro r hres
      simp only [Except.ok.injEq, Option.some.injEq] at hres
      rw [← hres]

theorem checkWorker_stats_shape (cfg : Config) (B : Backend) (avail : Bool) (s : StreamRef)
    (prog : List (String × StreamResult)) (st : Stats) (now : String) :
    (check_stream_worker cfg B avail s prog st now).stats = st ∨
    (check_stream_worker cfg B avail s prog st now).stats = statsCheckWorking st ∨
    (check_stream_worker cfg B avail s prog st now).stats = statsCheckFailed st := by
  unfold check_stream_worker
  cases avail with
  | false => exact Or.inl rfl
  | true =>
    dsimp only
    cases hk : alookup prog (streamKey s) with
    | some r =>
      dsimp only
      by_cases hw : r.status = "working"
      · rw [if_pos hw]; exact Or.inr (Or.inl rfl)
      · rw [if_neg hw]; exact Or.inr (Or.inr rfl)
    | none =>
      cases hc : B.check_channel_status s.url cfg.stream_timeout (cfg.stream_timeout + 5) with
      | error e' => exact Or.inl rfl
      | ok status =>
        dsimp only
        by_cases hst : status = "Alive"
        · rw [if_pos hst]
          cases hdet : B.get_detailed_stream_info s.url with
          | error e' => exact Or.inl rfl
          | ok v =>
            obtain ⟨cn, vb, rs, fp⟩ := v
            dsimp only
            cases ha : B.get_audio_bitrate s.url with
            | error e' => exact Or.inl rfl
            | ok ai => exact Or.inr (Or.inl rfl)
        · rw [if_neg hst]
          exact Or.inr (Or.inr rfl)

theorem checkWorker_total_cases (cfg : Config) (B : Backend) (s : StreamRef)
    (prog : List (String × StreamResult)) (st : Stats) (now : String)
    (hB : TotalBackend B) :
    ((check_stream_worker cfg B true s prog st now).probes = 0 ∧
      (check_stream_worker cfg B true s prog st now).progress = prog ∧
      alookup prog (streamKey s) ≠ none ∧
      ∃ res, (check_stream_worker cfg B true s prog st now).result = .ok res) ∨
    (∃ r, (check_stream_worker cfg B true s prog st now).probes = 1 ∧
      (check_stream_worker cfg B true s prog st now).progress =
        aupdate prog (streamKey s) r ∧
      alookup prog (streamKey s) = none ∧
      (check_stream_worker cfg B true s prog st now).result = .ok (some r)) := by
  obtain ⟨h1, h2, h3⟩ := hB
  cases hk : alookup prog (streamKey s) with
  | some r =>
    left
    rw [checkWorker_memo cfg B s prog st now r hk]
    exact ⟨rfl, rfl, by simp [hk], some r, rfl⟩
  | none =>
    right
    obtain ⟨status, hs⟩ := h1 s.url cfg.stream_timeout (cfg.stream_timeout + 5)
    obtain ⟨v, hd⟩ := h2 s.url
    obtain ⟨cn, vb, rs, fp⟩ := v
    obtain ⟨ai, ha⟩ := h3 s.url
    unfold check_stream_worker
    dsimp only
    rw [hk, hs]
    dsimp only
    by_cases hst : status = "Alive"
    · rw [if_pos hst, hd]
      dsimp only
      rw [ha]
      exact ⟨_, rfl, rfl, rfl, rfl⟩
    · rw [if_neg hst]
      exact ⟨_, rfl, rfl, rfl, rfl⟩

theorem checkPhase_cons_ok (cfg : Config) (B : Backend) (now : String) (s : StreamRef)
    (rest : List StreamRef) (prog : List (String × StreamResult)) (st : Stats)
    (res : Option StreamResult)
    (hres : (check_stream_worker cfg B true s prog st now).result = .ok res) :
    checkPhase cfg B true now prog st (s :: rest) =
      { progress := (checkPhase cfg B true now
          (check_stream_worker cfg B true s prog st now).progress
          (check_stream_worker cfg B true s prog st now).stats rest).progress,
        stats := (checkPhase cfg B true now
          (check_stream_worker cfg B true s prog st now).progress
          (check_stream_worker cfg B true s prog st now).stats rest).stats,
        states := (check_stream_worker cfg B true s prog st now).stats ::
          (checkPhase cfg B true now
            (check_stream_worker cfg B true s prog st now).progress
            (check_stream_worker cfg B true s prog st now).stats rest).states,
        probedKeys :=
          (if (check_stream_worker cfg B true s prog st now).probes = 1
            then [streamKey s] else []) ++
          (checkPhase cfg B true now
            (check_stream_worker cfg B true s prog st now).progress
            (check_stream_worker cfg B true s prog st now).stats rest).probedKeys,
        workingAdded := drainAppend res ++
          (checkPhase cfg B true now
            (check_stream_worker cfg B true s prog st now).progress
            (check_stream_worker cfg B true s prog st now).stats rest).workingAdded } := by
  conv_lhs => unfold checkPhase
  dsimp only
  cases hres2 : (check_stream_worker cfg B true s prog st now).result with
  | error e => rw [hres2] at hres; simp at hres
  | ok res2 =>
    rw [hres2] at hres
    injection hres with h
    subst h
    rfl

theorem checkPhase_cons_error (cfg : Config) (B : Backend) (now : String) (s : StreamRef)
    (rest : List StreamRef) (prog : List (String × StreamResult)) (st : Stats) (e : String)
    (hres : (check_stream_worker cfg B true s prog st now).result = .error e) :
    checkPhase cfg B true now prog st (s :: rest) =
      checkPhase cfg B true now prog st rest := by
  conv_lhs => unfold checkPhase
  dsimp only
  cases hres2 : (check_stream_worker cfg B true s prog st now).result with
  | error e2 => rfl
  | ok res2 => rw [hres2] at hres; simp at hres

theorem checkPhase_probe_invariant (cfg : Config) (B : Backend) (now : String)
    (hB : TotalBackend B) (streams : List StreamRef) :
    ∀ (prog : List (String × StreamResult)) (st : Stats) (k : String),
      (List.count k (checkPhase cfg B true now prog st streams).probedKeys ≤
        (if alookup prog k = none then 1 else 0)) ∧
      (alookup prog k ≠ none →
        alookup (checkPhase cfg B true now prog st streams).progress k ≠ none) := by
  induction streams with
  | nil =>
    intro prog st k
    refine ⟨by simp [checkPhase], fun h => by simpa [checkPhase] using h⟩
  | cons s rest ih =>
    intro prog st k
    rcases checkWorker_total_cases cfg B s prog st now hB with
      ⟨hp0, hprog, hmem, res, hres⟩ | ⟨r, hp1, hprog, hmiss, hres⟩
    · rw [checkPhase_cons_ok cfg B now s rest prog st res hres]
      dsimp only
      rw [hp0, hprog]
      simp only [if_neg (by omega : ¬ (0 = 1)), List.nil_append]
      exact ih prog (check_stream_worker cfg B true s prog st now).stats k
    · rw [checkPhase_cons_ok cfg B now s rest prog st (some r) hres]
      dsimp only
      rw [hp1, hprog]
      simp only [eq_self_iff_true, if_true, List.singleton_append, List.count_cons]
      by_cases hkk : k = streamKey s
      · subst hkk
        have hrec := ih (aupdate prog (streamKey s) r)
            (check_stream_worker cfg B true s prog st now).stats (streamKey s)
        constructor
        · have h0 : List.count (streamKey s) (checkPhase cfg B true now
              (aupdate prog (streamKey s) r)
              (check_stream_worker cfg B true s prog st now).stats rest).probedKeys = 0 := by
            have hc := hrec.1
            rw [alookup_aupdate_self] at hc
            simpa using hc
          rw [hmiss]
          simp [h0]
        · intro _
          refine hrec.2 ?_
          rw [alookup_aupdate_self]
          simp
      · have hrec := ih (aupdate prog (streamKey s) r)
          (check_stream_worker cfg B true s prog st now).stats k
        have hlk : alookup (aupdate prog (streamKey s) r) k = alookup prog k :=
          alookup_aupdate_ne prog (streamKey s) k r hkk
        have hne : ¬ ((streamKey s == k) = true) := by
          simp only [beq_iff_eq]
          exact fun hh => hkk hh.symm
        constructor
        · have hcount := hrec.1
          rw [hlk] at hcount
          calc List.count k (checkPhase cfg B true now (aupdate prog (streamKey s) r)
                (check_stream_worker cfg B true s prog st now).stats rest).probedKeys +
              (if streamKey s == k then 1 else 0)
              = List.count k (checkPhase cfg B true now (aupdate prog (streamKey s) r)
                (check_stream_worker cfg B true s prog st now).stats rest).probedKeys := by
                rw [if_neg hne, Nat.add_zero]
            _ ≤ _ := hcount
        · intro h
          refine hrec.2 ?_
          rw [hlk]
          exact h

theorem parseWhileF_eq_immediate (l : List String) :
    ∀ (fuel i : Nat), l.length - i ≤ fuel →
      parseLinesWhileF l i fuel = parseLinesImmediate (List.drop i l) := by
  intro fuel
  induction fuel with
  | zero =>
    intro i hi
    rw [List.drop_eq_nil_of_le (by omega)]
    rfl
  | succ fuel ih =>
    intro i hi
    by_cases h : i < l.length
    · by_cases hext : startsWithL "#EXTINF".data (trimL l[i].data) = true
      · by_cases h2 : i + 1 < l.length
        · have hd : List.drop i l = l[i] :: l[i + 1] :: List.drop (i + 2) l := by
            rw [List.drop_eq_getElem_cons h, List.drop_eq_getElem_cons h2]
          rw [hd]
          simp only [parseLinesWhileF, parseLinesImmediate, if_pos h, if_pos h2,
            List.getD_eq_getElem l "" h, List.getD_eq_getElem l "" h2, hext, if_true]
          rw [ih (i + 2) (by omega)]
        · have hd : List.drop i l = [l[i]] := by
            rw [List.drop_eq_getElem_cons h, List.drop_eq_nil_of_le (by omega)]
          rw [hd]
          simp only [parseLinesWhileF, parseLinesImmediate, if_pos h, if_neg h2,
            List.getD_eq_getElem l "" h, hext, if_true]
      · rw [List.drop_eq_getElem_cons h]
        conv_rhs => rw [parseLinesImmediate.eq_def]
        simp only [parseLinesWhileF, if_pos h, List.getD_eq_getElem l "" h, hext, if_false,
          Bool.false_eq_true]
        rw [ih (i + 1) (by omega)]
    · rw [List.drop_eq_nil_of_le (by omega)]
      simp only [parseLinesWhileF, if_neg h]
      rfl

/-- Claim C2 (confirmed): whenever `check_stream_worker` runs on a
stream whose StreamKey is already in the progress map, it returns the
stored result unchanged and makes no backend call; on a missing key it
probes exactly once and, whenever it returns a result, has stored that
result into the map under the key before returning.  Consequently, in a
drained wave over a backend that does not raise, no StreamKey is probed
more than once. -/
theorem c2_at_most_once_probing (cfg : Config) (B : Backend) (s : StreamRef)
    (prog : List (String × StreamResult)) (st : Stats) (now : String) :
    (∀ r, alookup prog (streamKey s) = some r →
      check_stream_worker cfg B true s prog st now =
        { result := .ok (some r), progress := prog,
          stats := if r.status = "working" then statsCheckWorking st
            else statsCheckFailed st,
          probes := 0, calls := 0 }) ∧
    (alookup prog (streamKey s) = none →
      (check_stream_worker cfg B true s prog st now).probes = 1 ∧
      ∀ r, (check_stream_worker cfg B true s prog st now).result = .ok (some r) →
        (check_stream_worker cfg B true s prog st now).progress =
          aupdate prog (streamKey s) r ∧
        alookup (check_stream_worker cfg B true s prog st now).progress
          (streamKey s) = some r) ∧
    (TotalBackend B → ∀ (streams : List StreamRef) (k : String),
      List.count k (checkPhase cfg B true now prog st streams).probedKeys ≤ 1) := by
  refine ⟨fun r hk => checkWorker_memo cfg B s prog st now r hk,
    fun hk => ?_, fun hB streams k => ?_⟩
  · refine ⟨checkWorker_miss_probes cfg B s prog st now hk, fun r hres => ?_⟩
    have hst := checkWorker_miss_stores cfg B s prog st now hk r hres
    exact ⟨hst, by rw [hst]; exact alookup_aupdate_self prog (streamKey s) r⟩
  · have h := (checkPhase_probe_invariant cfg B now hB streams prog st k).1
    exact le_trans h (by split <;> omega)

/-- Witness for C2 at a concrete memoized input: the stored failed
result for key `CNN_http://x/cnn` is returned unchanged with zero
backend calls, even against a backend that would report it alive. -/
theorem c2_witness :
    check_stream_worker {} backendAlive true cnnStream
        [("CNN_http://x/cnn", cnnFailedResult)] {} "t" =
      { result := .ok (some cnnFailedResult),
        progress := [("CNN_http://x/cnn", cnnFailedResult)],
        stats := statsCheckFailed {}, probes := 0, calls := 0 } := by
  have h := (c2_at_most_once_probing {} backendAlive cnnStream
      [("CNN_http://x/cnn", cnnFailedResult)] {} "t").1 cnnFailedResult (by decide)
  rw [h]
  decide

/-- Claim C3 (corrected), counterexample: with a backend whose probe
raises, `check_stream_worker` does not produce and store a `failed`
result — the exception propagates and the progress map is untouched. -/
theorem c3_counterexample : ¬ claimC3 := by
  intro h
  obtain ⟨r, hfail, hres, hstore⟩ :=
    h {} backendBoom cnnStream [] {} "t" "boom" (by decide) (by decide)
  have hw : (check_stream_worker {} backendBoom true cnnStream [] {} "t").result =
      Except.error "boom" := by decide
  rw [hw] at hres
  simp at hres

/-- Claim C3 (corrected): when the probe of an unmemoized stream
raises, the worker propagates the exception with the progress map and
counters unchanged (one probe was spent); the drain loop swallows the
exception, so nothing is stored and the StreamKey remains unmemoized —
it will be probed again on the next encounter. -/
theorem c3_exception_amended (cfg : Config) (B : Backend) (s : StreamRef)
    (prog : List (String × StreamResult)) (st : Stats) (now e : String)
    (hmiss : alookup prog (streamKey s) = none)
    (herr : B.check_channel_status s.url cfg.stream_timeout (cfg.stream_timeout + 5) =
      Except.error e) :
    (check_stream_worker cfg B true s prog st now).result = Except.error e ∧
    (check_stream_worker cfg B true s prog st now).progress = prog ∧
    (check_stream_worker cfg B true s prog st now).stats = st ∧
    (check_stream_worker cfg B true s prog st now).probes = 1 ∧
    checkPhase cfg B true now prog st [s] =
      { progress := prog, stats := st, states := [], probedKeys := [],
        workingAdded := [] } ∧
    alookup (checkPhase cfg B true now prog st [s]).progress (streamKey s) = none := by
  have hres : (check_stream_worker cfg B true s prog st now).result = Except.error e := by
    unfold check_stream_worker
    dsimp only
    rw [hmiss, herr]
  obtain ⟨hp, hs, hb⟩ := checkWorker_error_frame cfg B s prog st now e hres
  have hph : checkPhase cfg B true now prog st [s] = checkPhase cfg B true now prog st [] :=
    checkPhase_cons_error cfg B now s [] prog st e hres
  refine ⟨hres, hp, hs, hb, ?_, ?_⟩
  · rw [hph]; rfl
  · rw [hph]; exact hmiss

/-- Witness for the amended C3 at a concrete raising backend. -/
theorem c3_witness :
    (check_stream_worker {} backendBoom true cnnStream [] {} "t").result =
      Except.error "boom" ∧
    (check_stream_worker {} backendBoom true cnnStream [] {} "t").progress = [] :=
  ⟨(c3_exception_amended {} backendBoom cnnStream [] {} "t" "boom"
      (by decide) (by decide)).1,
    (c3_exception_amended {} backendBoom cnnStream [] {} "t" "boom"
      (by decide) (by decide)).2.1⟩

/-- Claim C4 (corrected), counterexample: a blank line between the
`#EXTINF` line and the URL makes the source parser drop the entry,
while the claim's skip-comments-and-blanks parser would emit it. -/
theorem c4_counterexample : ¬ claimC4 := by
  intro h
  have hc := h "#EXTINF:-1,CNN\n\nhttp://x"
  revert hc
  decide

/-- Claim C4 (corrected): the parser pairs an `#EXTINF` line with the
immediately following line only — that line becomes the URL exactly
when, after trimming, it is non-empty and not a comment; otherwise the
entry is dropped (and the offending line consumed).  A trailing
`#EXTINF` with no following line, and one followed by a blank line, are
both silently skipped. -/
theorem c4_parser_amended :
    (∀ content : String,
      download_and_parse_playlist content =
        parseLinesImmediate ((splitOnChar '\n' content.data).map String.mk)) ∧
    parseLinesImmediate ["#EXTINF:-1,CNN", "", "http://x"] = [] ∧
    parseLinesImmediate ["#EXTINF:-1,CNN"] = [] ∧
    parseLinesImmediate ["# comment", "", "#EXTINF:-1,CNN", "http://x"] =
      [{ extinf := "#EXTINF:-1,CNN", url := "http://x",
         info := { channel_name := "CNN" } }] := by
  refine ⟨?_, by decide, by decide, by decide⟩
  intro content
  unfold download_and_parse_playlist parseLinesWhile
  have h := parseWhileF_eq_immediate ((splitOnChar '\n' content.data).map String.mk)
    (((splitOnChar '\n' content.data).map String.mk).length - 0) 0 (by omega)
  simpa using h

/-- Claim C7 (corrected), counterexample: `"canal 18+"` contains the
claimed keyword `18+` as a standalone word, yet the filter does not
exclude it — the compiled `\b18\+\b` pattern needs a word character
after the `+`. -/
theorem c7_counterexample : ¬ claimC7 := by
  intro h
  have hc := h {} "canal 18+" ""
  revert hc
  decide

/-- Claim C8 (confirmed): a tvg-id with a dot whose final dot-separated
suffix is in the TLD table decides the country regardless of the other
fields, and `{tvg_id:"", group_title:"USA Sports",
channel_name:"Paramount"}` resolves to `US` because two- and
three-letter codes only match as standalone words. -/
theorem c8_country_resolution :
    (∀ (info : ChannelInfo) (code : String),
      info.tvg_id.data.any (fun c => c = '.') = true →
      alookup tld_country_map
        (String.mk (upperL ((splitOnChar '.' info.tvg_id.data).getLastD []))) = some code →
      inferCountry info = code) ∧
    inferCountry usaSportsInfo = "US" := by
  constructor
  · intro info code hdot htld
    unfold inferCountry extract_country_from_tvg_id
    have hne : ¬ (info.tvg_id = "") := by
      intro he
      rw [he] at hdot
      simp at hdot
    rw [if_neg hne, hdot]
    rw [htld]
    rfl
  · decide

/-- Witness for C8: `globo.br` resolves to `BR` through the TLD rule
and the concrete US example evaluates as stated. -/
theorem c8_witness :
    inferCountry globoInfo = "BR" ∧ inferCountry usaSportsInfo = "US" :=
  ⟨c8_country_resolution.1 globoInfo "BR" (by decide) (by decide),
    c8_country_resolution.2⟩

/-- Claim C9 (corrected), counterexample: a file in the legacy list
form that also carries a `last_updated` field is upgraded with that
value as timestamp, not with an empty timestamp. -/
theorem c9_counterexample : ¬ claimC9 := by
  intro h
  have hc := h.2.2 ["u"] (some "2024-01-01")
  revert hc
  decide

/-- Claim C9 (corrected): loading returns the empty store for an
absent (or unreadable) file and under the reprocess flag, returns the
`playlists` map of the current form unchanged, and upgrades every
legacy entry to `status = processed` with the file's top-level
`last_updated` as timestamp — empty only when that field is absent. -/
theorem c9_loader_amended :
    load_playlist_progress false .absent = [] ∧
    (∀ file, load_playlist_progress true file = []) ∧
    load_playlist_progress false .corrupt = [] ∧
    (∀ (m : List (String × PlaylistRecord)) (procs : Option (List String))
        (lu : Option String),
      load_playlist_progress false (.parsed (some m) procs lu) = m) ∧
    (∀ (urls : List String) (lu : Option String),
      load_playlist_progress false (.parsed none (some urls) lu) =
        urls.map (fun u => (u, { status := "processed", timestamp := lu.getD "" }))) ∧
    (∀ urls : List String,
      load_playlist_progress false (.parsed none (some urls) none) =
        urls.map (fun u => (u, { status := "processed", timestamp := "" }))) :=
  ⟨rfl, fun _ => rfl, rfl, fun _ _ _ => rfl, fun _ _ => rfl, fun _ => rfl⟩

/-- Claim C1 (corrected), counterexample: the playlist progress file is
opened for writing in place, so a failing dump leaves a torn file — the
claimed temp-file protocol does not hold for it. -/
theorem c1_counterexample : ¬ claimC1 := by
  intro h
  have h2 := h.2.1 (save_playlist_progress_ops false) (by simp [allPlaylistSaveTraces]) 1
  revert h2
  decide

/-- Claim C1 (corrected): only the stream progress file is written with
the `<path>.tmp` + atomic-rename protocol (with the temp file removed
on failure and the target never observable torn); the playlist progress
file and the output playlist are written in place — a successful save
replaces them, a failing one can leave them torn. -/
theorem c1_atomicity_amended :
    atomicSaveTraces allStreamSaveTraces stream_progress_file ∧
    (∀ dumpOk replaceOk : Bool, dumpOk = false ∨ replaceOk = false →
      runFsOps initialFsys (save_stream_progress_ops dumpOk replaceOk)
          (stream_progress_file ++ ".tmp") = .absent ∧
        runFsOps initialFsys (save_stream_progress_ops dumpOk replaceOk)
          stream_progress_file = .old) ∧
    runFsOps initialFsys (save_playlist_progress_ops true) playlist_progress_file = .fresh ∧
    runFsOps initialFsys (save_playlist_progress_ops false) playlist_progress_file = .torn ∧
    runFsOps initialFsys (write_m3u_output_ops true) final_output_file = .fresh ∧
    runFsOps initialFsys (write_m3u_output_ops false) final_output_file = .torn := by
  refine ⟨?_, ?_, by decide, by decide, by decide, by decide⟩
  · intro tr htr n
    have h4 : tr = save_stream_progress_ops true true ∨ tr = save_stream_progress_ops true false ∨
        tr = save_stream_progress_ops false true ∨ tr = save_stream_progress_ops false false := by
      simpa [allStreamSaveTraces] using htr
    have hlen : tr.length ≤ 2 := by rcases h4 with rfl | rfl | rfl | rfl <;> decide
    rcases n with _ | _ | n
    · rcases h4 with rfl | rfl | rfl | rfl <;> decide
    · rcases h4 with rfl | rfl | rfl | rfl <;> decide
    · rw [List.take_of_length_le (le_trans hlen (by omega))]
      rcases h4 with rfl | rfl | rfl | rfl <;> decide
  · intro d r h
    rcases h with h | h
    · cases h; cases r <;> decide
    · cases h; cases d <;> decide

/-- Witness for the amended C1: one observation point of a stream save
shows old-or-new contents, and a failed save leaves no temp file. -/
theorem c1_witness :
    (runFsOps initialFsys (List.take 1 (save_stream_progress_ops true true))
        stream_progress_file = .old ∨
      runFsOps initialFsys (List.take 1 (save_stream_progress_ops true true))
        stream_progress_file = .fresh) ∧
    runFsOps initialFsys (save_stream_progress_ops false true)
        (stream_progress_file ++ ".tmp") = .absent :=
  ⟨c1_atomicity_amended.1 (save_stream_progress_ops true true)
      (by simp [allStreamSaveTraces]) 1,
    (c1_atomicity_amended.2.1 false true (Or.inl rfl)).1⟩

theorem filterPhase_facts (cfg : Config) (streams : List StreamRef) :
    ∀ st : Stats,
      (filterPhase cfg st streams).stats.total_streams = st.total_streams ∧
      (filterPhase cfg st streams).stats.checked = st.checked ∧
      (filterPhase cfg st streams).stats.working = st.working ∧
      (filterPhase cfg st streams).stats.failed = st.failed ∧
      (filterPhase cfg st streams).stats.filtered +
          (filterPhase cfg st streams).kept.length =
        st.filtered + streams.length := by
  induction streams with
  | nil => intro st; exact ⟨rfl, rfl, rfl, rfl, by simp [filterPhase]⟩
  | cons s rest ih =>
    intro st
    by_cases hf : should_filter_stream cfg s.info.channel_name s.info.group_title = true
    · simp only [filterPhase, hf, if_true]
      obtain ⟨h1, h2, h3, h4, h5⟩ := ih (statsAddFiltered st)
      refine ⟨h1, h2, h3, h4, ?_⟩
      simp only [List.length_cons]
      rw [h5]
      simp only [statsAddFiltered]
      omega
    · simp only [filterPhase, hf, if_false, Bool.false_eq_true]
      obtain ⟨h1, h2, h3, h4, h5⟩ := ih st
      refine ⟨h1, h2, h3, h4, ?_⟩
      simp only [List.length_cons]
      omega

theorem checkPhase_counter_invariant (cfg : Config) (B : Backend) (now : String)
    (streams : List StreamRef) :
    ∀ (prog : List (String × StreamResult)) (st : Stats),
      st.filtered + st.checked + streams.length ≤ st.total_streams →
      st.checked = st.working + st.failed →
      ((∀ x ∈ (checkPhase cfg B true now prog st streams).states,
          x.filtered + x.checked ≤ x.total_streams) ∧
        (checkPhase cfg B true now prog st streams).stats.filtered +
            (checkPhase cfg B true now prog st streams).stats.checked ≤
          (checkPhase cfg B true now prog st streams).stats.total_streams ∧
        (checkPhase cfg B true now prog st streams).stats.checked =
          (checkPhase cfg B true now prog st streams).stats.working +
            (checkPhase cfg B true now prog st streams).stats.failed) := by
  induction streams with
  | nil =>
    intro prog st hJ heq
    refine ⟨by simp [checkPhase], ?_, ?_⟩
    · simp only [checkPhase]
      omega
    · simpa [checkPhase] using heq
  | cons s rest ih =>
    intro prog st hJ heq
    have hlen : rest.length + 1 = (s :: rest).length := by simp
    cases hres : (check_stream_worker cfg B true s prog st now).result with
    | error e =>
      rw [checkPhase_cons_error cfg B now s rest prog st e hres]
      refine ih prog st (by simp only [List.length_cons] at hJ; omega) heq
    | ok res =>
      rw [checkPhase_cons_ok cfg B now s rest prog st res hres]
      dsimp only
      simp only [List.length_cons] at hJ
      rcases checkWorker_stats_shape cfg B true s prog st now with hsh | hsh | hsh
      · rw [hsh]
        obtain ⟨hstates, hineq2, heq2⟩ :=
          ih (check_stream_worker cfg B true s prog st now).progress st (by omega) heq
        refine ⟨?_, hineq2, heq2⟩
        intro x hx
        rcases List.mem_cons.mp hx with rfl | hx
        · omega
        · exact hstates x hx
      · rw [hsh]
        obtain ⟨hstates, hineq2, heq2⟩ :=
          ih (check_stream_worker cfg B true s prog st now).progress (statsCheckWorking st)
            (by simp only [statsCheckWorking]; omega)
            (by simp only [statsCheckWorking]; omega)
        refine ⟨?_, hineq2, heq2⟩
        intro x hx
        rcases List.mem_cons.mp hx with rfl | hx
        · simp only [statsCheckWorking]; omega
        · exact hstates x hx
      · rw [hsh]
        obtain ⟨hstates, hineq2, heq2⟩ :=
          ih (check_stream_worker cfg B true s prog st now).progress (statsCheckFailed st)
            (by simp only [statsCheckFailed]; omega)
            (by simp only [statsCheckFailed]; omega)
        refine ⟨?_, hineq2, heq2⟩
        intro x hx
        rcases List.mem_cons.mp hx with rfl | hx
        · simp only [statsCheckFailed]; omega
        · exact hstates x hx

theorem processPlaylist_invariant (cfg : Config) (B : Backend) (now : String)
    (pl : List StreamRef) (prog : List (String × StreamResult)) (st : Stats)
    (hineq : st.filtered + st.checked ≤ st.total_streams)
    (heq : st.checked = st.working + st.failed) :
    (∀ x ∈ (processPlaylist cfg B true now prog st pl).mainStates,
      x.filtered + x.checked ≤ x.total_streams) ∧
    (processPlaylist cfg B true now prog st pl).stats.filtered +
        (processPlaylist cfg B true now prog st pl).stats.checked ≤
      (processPlaylist cfg B true now prog st pl).stats.total_streams ∧
    (processPlaylist cfg B true now prog st pl).stats.checked =
      (processPlaylist cfg B true now prog st pl).stats.working +
        (processPlaylist cfg B true now prog st pl).stats.failed := by
  unfold processPlaylist
  dsimp only
  obtain ⟨hT, hC, hW, hF, hfilt⟩ := filterPhase_facts cfg pl st
  have hJ2 : (statsAddTotal (filterPhase cfg st pl).stats pl.length).filtered +
      (statsAddTotal (filterPhase cfg st pl).stats pl.length).checked +
      (filterPhase cfg st pl).kept.length ≤
      (statsAddTotal (filterPhase cfg st pl).stats pl.length).total_streams := by
    simp only [statsAddTotal]
    omega
  have heq2 : (statsAddTotal (filterPhase cfg st pl).stats pl.length).checked =
      (statsAddTotal (filterPhase cfg st pl).stats pl.length).working +
        (statsAddTotal (filterPhase cfg st pl).stats pl.length).failed := by
    simp only [statsAddTotal]
    omega
  obtain ⟨hstates, hineq2, heq3⟩ := checkPhase_counter_invariant cfg B now
    (filterPhase cfg st pl).kept prog
    (statsAddTotal (filterPhase cfg st pl).stats pl.length) hJ2 heq2
  refine ⟨?_, hineq2, heq3⟩
  intro x hx
  rcases List.mem_cons.mp hx with rfl | hx
  · simp only [statsAddTotal]
    omega
  · exact hstates x hx

theorem processRun_invariant (cfg : Config) (B : Backend) (now : String)
    (playlists : List (List StreamRef)) :
    ∀ (prog : List (String × StreamResult)) (st : Stats),
      st.filtered + st.checked ≤ st.total_streams →
      st.checked = st.working + st.failed →
      ((∀ x ∈ (processRun cfg B true now prog st playlists).mainStates,
          x.filtered + x.checked ≤ x.total_streams) ∧
        (processRun cfg B true now prog st playlists).stats.filtered +
            (processRun cfg B true now prog st playlists).stats.checked ≤
          (processRun cfg B true now prog st playlists).stats.total_streams ∧
        (processRun cfg B true now prog st playlists).stats.checked =
          (processRun cfg B true now prog st playlists).stats.working +
            (processRun cfg B true now prog st playlists).stats.failed) := by
  induction playlists with
  | nil =>
    intro prog st hineq heq
    exact ⟨by simp [processRun], by simpa [processRun] using hineq,
      by simpa [processRun] using heq⟩
  | cons pl rest ih =>
    intro prog st hineq heq
    obtain ⟨hstates1, hineq1, heq1⟩ :=
      processPlaylist_invariant cfg B now pl prog st hineq heq
    obtain ⟨hstates2, hineq2, heq2⟩ :=
      ih (processPlaylist cfg B true now prog st pl).progress
        (processPlaylist cfg B true now prog st pl).stats hineq1 heq1
    simp only [processRun]
    refine ⟨?_, hineq2, heq2⟩
    intro x hx
    rcases List.mem_append.mp hx with hx | hx
    · exact hstates1 x hx
    · exact hstates2 x hx

/-- Claim C6 (corrected), counterexample: in a run over one playlist
holding a single filtered stream, the state recorded right after the
`filtered` update is `filtered = 1`, `checked = 0`, `total_streams = 0`
 — the filter loop runs before the `total_streams` update, so
`filtered + checked ≤ total_streams` fails at that observation point. -/
theorem c6_counterexample : ¬ claimC6 := by
  intro h
  have hstate : ({ filtered := 1 } : Stats) ∈
      runAllStates (processRun {} backendDead true "t" [] {} [[movieStream]]) := by
    decide
  have hbad := (h {} backendDead "t" [[movieStream]]).2 { filtered := 1 } hstate
  revert hbad
  decide

/-- Claim C6 (corrected): `checked = working + failed` holds at the end
of every run (and both it and `filtered + checked ≤ total_streams` are
preserved at run granularity); the inequality holds at every counter
update from each playlist's `total_streams` update onward, but can be
violated transiently during a playlist's filter-counting loop, which
increments `filtered` before `total_streams` is raised. -/
theorem c6_counters_amended (cfg : Config) (B : Backend) (now : String)
    (playlists : List (List StreamRef)) (prog : List (String × StreamResult))
    (st : Stats)
    (hineq : st.filtered + st.checked ≤ st.total_streams)
    (heq : st.checked = st.working + st.failed) :
    (processRun cfg B true now prog st playlists).stats.checked =
      (processRun cfg B true now prog st playlists).stats.working +
        (processRun cfg B true now prog st playlists).stats.failed ∧
    (∀ x ∈ (processRun cfg B true now prog st playlists).mainStates,
      x.filtered + x.checked ≤ x.total_streams) ∧
    (processRun cfg B true now prog st playlists).stats.filtered +
        (processRun cfg B true now prog st playlists).stats.checked ≤
      (processRun cfg B true now prog st playlists).stats.total_streams := by
  obtain ⟨h1, h2, h3⟩ := processRun_invariant cfg B now playlists prog st hineq heq
  exact ⟨h3, h1, h2⟩

/-- Witness for the amended C6 on a concrete run: one playlist with a
filtered stream and a probed stream. -/
theorem c6_witness :
    (processRun {} backendDead true "t" [] {} [[movieStream, cnnStream]]).stats.checked =
      (processRun {} backendDead true "t" [] {} [[movieStream, cnnStream]]).stats.working +
        (processRun {} backendDead true "t" [] {} [[movieStream, cnnStream]]).stats.failed ∧
    (processRun {} backendDead true "t" [] {} [[movieStream, cnnStream]]).stats.filtered +
        (processRun {} backendDead true "t" [] {} [[movieStream, cnnStream]]).stats.checked ≤
      (processRun {} backendDead true "t" [] {} [[movieStream, cnnStream]]).stats.total_streams := by
  have h := c6_counters_amended {} backendDead "t" [[movieStream, cnnStream]] [] {}
    (by decide) (by decide)
  exact ⟨h.1, h.2.2⟩

theorem litTake_eq_some (s : List Char) :
    ∀ (t r : List Char), litTake s t = some r ↔ t = s ++ r := by
  induction s with
  | nil =>
    intro t r
    simp [litTake, eq_comm]
  | cons c cs ih =>
    intro t r
    cases t with
    | nil => simp [litTake]
    | cons x xs =>
      simp only [litTake, List.cons_append, List.cons.injEq]
      by_cases h : c = x
      · subst h
        simp only [eq_self_iff_true, if_true, ih, true_and]
      · rw [if_neg h]
        constructor
        · intro hh
          exact absurd hh (by simp)
        · rintro ⟨h1, _⟩
          exact absurd h1.symm h

theorem AtomM_lit_inv {s t r : List Char} (h : AtomM (.lit s) t r) : t = s ++ r := by
  cases h
  rfl

theorem wsSuffixes_mem (t : List Char) :
    ∀ r, r ∈ wsSuffixes t ↔ AtomM .wsStar t r := by
  induction t with
  | nil =>
    intro r
    simp only [wsSuffixes, List.mem_singleton]
    constructor
    · rintro rfl; exact AtomM.wsNil []
    · intro h; cases h; rfl
  | cons c rest ih =>
    intro r
    simp only [wsSuffixes]
    by_cases hw : c.isWhitespace = true
    · simp only [hw, if_true, List.mem_cons]
      constructor
      · rintro (rfl | hr)
        · exact AtomM.wsNil _
        · exact AtomM.wsCons hw ((ih r).mp hr)
      · intro h
        cases h with
        | wsNil => exact Or.inl rfl
        | wsCons hc hrest => exact Or.inr ((ih r).mpr hrest)
    · simp only [hw, if_false, Bool.false_eq_true, List.mem_cons, List.not_mem_nil, or_false]
      constructor
      · rintro rfl; exact AtomM.wsNil _
      · intro h
        cases h with
        | wsNil => rfl
        | wsCons hc hrest => exact absurd hc hw

theorem atomEnds_mem (a : RAtom) (t : List Char) :
    ∀ r, r ∈ atomEnds a t ↔ AtomM a t r := by
  intro r
  cases a with
  | lit s =>
    simp only [atomEnds]
    cases hl : litTake s t with
    | none =>
      simp only [List.not_mem_nil, false_iff]
      intro h
      rw [(litTake_eq_some s t r).mpr (AtomM_lit_inv h)] at hl
      exact Option.noConfusion hl
    | some r2 =>
      simp only [List.mem_singleton]
      have h2 := (litTake_eq_some s t r2).mp hl
      constructor
      · rintro rfl
        rw [h2]
        exact AtomM.lit s r
      · intro h
        have h4 : s ++ r2 = s ++ r := by
          rw [← h2]
          exact AtomM_lit_inv h
        exact (List.append_cancel_left h4).symm
  | wsStar => exact wsSuffixes_mem t r
  | optChar c =>
    cases t with
    | nil =>
      simp only [atomEnds, List.mem_cons, List.not_mem_nil, or_false]
      constructor
      · rintro rfl; exact AtomM.optNone c []
      · intro h; cases h; rfl
    | cons x xs =>
      simp only [atomEnds, List.mem_cons]
      by_cases hx : x = c
      · subst hx
        simp only [eq_self_iff_true, if_true, List.mem_singleton]
        constructor
        · rintro (rfl | rfl)
          · exact AtomM.optNone x (x :: xs)
          · exact AtomM.optSome x _
        · intro h
          cases h with
          | optNone => exact Or.inl rfl
          | optSome => exact Or.inr rfl
      · rw [if_neg hx]
        simp only [List.not_mem_nil, or_false]
        constructor
        · rintro rfl; exact AtomM.optNone c (x :: xs)
        · intro h
          cases h with
          | optNone => rfl
          | optSome => exact absurd rfl hx

theorem altEnds_mem (as : List RAtom) :
    ∀ t r, r ∈ altEnds as t ↔ AltM as t r := by
  induction as with
  | nil =>
    intro t r
    simp only [altEnds, List.mem_singleton]
    constructor
    · rintro rfl; exact AltM.nil _
    · intro h; cases h; rfl
  | cons a as ih =>
    intro t r
    simp only [altEnds, List.mem_flatten, List.mem_map]
    constructor
    · rintro ⟨l, ⟨m, hm, rfl⟩, hr⟩
      exact AltM.cons ((atomEnds_mem a t m).mp hm) ((ih m r).mp hr)
    · intro h
      cases h with
      | cons ha has =>
        refine ⟨altEnds as _, ⟨_, (atomEnds_mem a t _).mpr ha, rfl⟩, (ih _ r).mpr has⟩

theorem patSearch_iff (alts : List (List RAtom)) (t : List Char) :
    patSearch alts t = true ↔ BoundaryAnchoredHit alts t := by
  unfold patSearch BoundaryAnchoredHit altHitsAt
  simp only [List.any_eq_true, List.mem_range, Nat.lt_succ_iff, Bool.and_eq_true,
    altEnds_mem]
  constructor
  · rintro ⟨i, hi, al, hal, hb, r, hr, hbe⟩
    exact ⟨al, hal, i, hi, r, hr, hb, hbe⟩
  · rintro ⟨al, hal, i, hi, r, hr, hb, hbe⟩
    exact ⟨i, hi, al, hal, hb, r, hr, hbe⟩

/-- Claim C7 (corrected): the filter returns true exactly when some
enabled compiled pattern has a regex-`\b`-anchored match in the
lowercased concatenation, and returns false for every input when the
filters are globally disabled.  Because `\b` between two non-word
characters never matches, the `+18` and `18+` keywords match only when
the `+` is adjacent to a word character: a standalone `18+` token is
not filtered, while `a+18` is. -/
theorem c7_filter_amended :
    (∀ (cfg : Config) (channel_name group_title : String),
      should_filter_stream cfg channel_name group_title = true ↔
        FilterSpecAmended cfg channel_name group_title) ∧
    (∀ (cfg : Config) (channel_name group_title : String),
      cfg.enable_filters = false →
      should_filter_stream cfg channel_name group_title = false) ∧
    should_filter_stream {} "canal 18+" "" = false ∧
    should_filter_stream {} "canal a+18" "" = true := by
  refine ⟨?_, ?_, by decide, by decide⟩
  · intro cfg n g
    unfold should_filter_stream FilterSpecAmended
    cases he : cfg.enable_filters with
    | false =>
      simp only [he, Bool.not_false, if_true, Bool.false_eq_true, false_iff]
      rintro ⟨hcontra, -⟩
      exact hcontra
    | true =>
      simp only [he, Bool.not_true, Bool.false_eq_true, if_false, List.any_eq_true,
        patSearch_iff, true_and]
  · intro cfg n g he
    unfold should_filter_stream
    simp [he]

/-- Witness for the amended C7: the disabled-filters clause and the
equivalence at a concrete input. -/
theorem c7_witness :
    should_filter_stream { enable_filters := false } "hbo movie" "" = false ∧
    (should_filter_stream {} "hbo movie" "" = true ↔
      FilterSpecAmended {} "hbo movie" "") :=
  ⟨c7_filter_amended.2.1 { enable_filters := false } "hbo movie" "" rfl,
    c7_filter_amended.1 {} "hbo movie" ""⟩

theorem lookupGroup_addToGroups {α : Type} (k k' : String) (x : α) :
    ∀ g : List (String × List α),
      lookupGroup (addToGroups g k x) k' =
        if k = k' then lookupGroup g k' ++ [x] else lookupGroup g k' := by
  intro g
  induction g with
  | nil =>
    by_cases h : k = k' <;> simp [addToGroups, lookupGroup, h]
  | cons p rest ih =>
    obtain ⟨pk, pl⟩ := p
    by_cases hpk : pk = k
    · subst hpk
      by_cases h2 : pk = k'
      · subst h2
        simp [addToGroups, lookupGroup]
      · simp [addToGroups, lookupGroup, h2]
    · by_cases h2 : pk = k'
      · subst h2
        have hne : ¬ (k = pk) := fun hh => hpk hh.symm
        simp [addToGroups, lookupGroup, hpk, hne]
      · simp [addToGroups, lookupGroup, hpk, h2, ih]

theorem lookupGroup_foldl {α : Type} (key : α → String) (k : String) :
    ∀ (xs : List α) (g : List (String × List α)),
      lookupGroup (xs.foldl (fun g x => addToGroups g (key x) x) g) k =
        lookupGroup g k ++ xs.filter (fun x => key x == k) := by
  intro xs
  induction xs with
  | nil => intro g; simp
  | cons x xs ih =>
    intro g
    simp only [List.foldl_cons, List.filter_cons]
    rw [ih (addToGroups g (key x) x), lookupGroup_addToGroups (key x) k x g]
    by_cases h : key x = k
    · simp [h]
    · simp [h]

theorem lookupGroup_groupByKey {α : Type} (key : α → String) (k : String) (xs : List α) :
    lookupGroup (groupByKey key xs) k = xs.filter (fun x => key x == k) := by
  unfold groupByKey
  rw [lookupGroup_foldl key k xs []]
  rfl

theorem addToGroups_keys {α : Type} (k : String) (x : α) :
    ∀ g : List (String × List α),
      (addToGroups g k x).map Prod.fst =
        if k ∈ g.map Prod.fst then g.map Prod.fst else g.map Prod.fst ++ [k] := by
  intro g
  induction g with
  | nil => simp [addToGroups]
  | cons p rest ih =>
    obtain ⟨pk, pl⟩ := p
    by_cases hpk : pk = k
    · subst hpk
      simp [addToGroups]
    · have hne : ¬ (k = pk) := fun hh => hpk hh.symm
      by_cases hmem : k ∈ rest.map Prod.fst
      · simp [addToGroups, hpk, ih, hmem, hne]
      · simp [addToGroups, hpk, ih, hmem, hne]

theorem groupByKey_keys_nodup {α : Type} (key : α → String) (xs : List α) :
    ((groupByKey key xs).map Prod.fst).Nodup := by
  unfold groupByKey
  suffices h : ∀ g : List (String × List α), (g.map Prod.fst).Nodup →
      ((xs.foldl (fun g x => addToGroups g (key x) x) g).map Prod.fst).Nodup by
    exact h [] (by simp)
  induction xs with
  | nil => intro g hg; simpa using hg
  | cons x xs ih =>
    intro g hg
    simp only [List.foldl_cons]
    refine ih (addToGroups g (key x) x) ?_
    rw [addToGroups_keys (key x) x g]
    by_cases hmem : key x ∈ g.map Prod.fst
    · simpa [hmem] using hg
    · simp only [hmem, if_false]
      exact List.Nodup.append hg (by simp) (by simpa [List.disjoint_singleton] using hmem)

theorem mem_lookupGroup_of_nodup {α : Type} (k : String) (l : List α) :
    ∀ g : List (String × List α), (k, l) ∈ g → (g.map Prod.fst).Nodup →
      lookupGroup g k = l := by
  intro g
  induction g with
  | nil => intro h; exact absurd h (List.not_mem_nil _)
  | cons p rest ih =>
    obtain ⟨pk, pl⟩ := p
    intro hmem hnd
    simp only [List.map_cons, List.nodup_cons] at hnd
    rcases List.mem_cons.mp hmem with heq | hmem2
    · rw [Prod.mk.injEq] at heq
      obtain ⟨h1, h2⟩ := heq
      simp [lookupGroup, h1.symm, h2.symm]
    · have hk : k ∈ rest.map Prod.fst := List.mem_map.mpr ⟨(k, l), hmem2, rfl⟩
      have hne : ¬ (pk = k) := fun hh => hnd.1 (hh ▸ hk)
      simp only [lookupGroup, if_neg hne]
      exact ih hmem2 hnd.2

theorem lookupGroup_not_mem {α : Type} (k : String) :
    ∀ g : List (String × List α), k ∉ g.map Prod.fst → lookupGroup g k = [] := by
  intro g
  induction g with
  | nil => intro _; rfl
  | cons p rest ih =>
    obtain ⟨pk, pl⟩ := p
    intro h
    simp only [List.map_cons, List.mem_cons, not_or] at h
    have hne : ¬ (pk = k) := fun hh => h.1 hh.symm
    simp only [lookupGroup, if_neg hne]
    exact ih h.2

theorem lookupGroup_ne_nil_mem {α : Type} (k : String) :
    ∀ g : List (String × List α), lookupGroup g k ≠ [] → (k, lookupGroup g k) ∈ g := by
  intro g
  induction g with
  | nil => intro h; exact absurd rfl h
  | cons p rest ih =>
    obtain ⟨pk, pl⟩ := p
    intro h
    by_cases hpk : pk = k
    · subst hpk
      simp only [lookupGroup, if_pos rfl] at h ⊢
      exact List.mem_cons.mpr (Or.inl rfl)
    · simp only [lookupGroup, if_neg hpk] at h ⊢
      exact List.mem_cons.mpr (Or.inr (ih h))

theorem insertAsc_perm (x : String) :
    ∀ l : List String, List.Perm (insertAsc x l) (x :: l) := by
  intro l
  induction l with
  | nil => simp [insertAsc]
  | cons y ys ih =>
    by_cases h : strLt x y = true
    · simp [insertAsc, h]
    · simp only [insertAsc, h, if_false, Bool.false_eq_true]
      exact (ih.cons y).trans (List.Perm.swap x y ys)

theorem sortStrings_perm (l : List String) : List.Perm (sortStrings l) l := by
  unfold sortStrings
  suffices h : ∀ (xs acc : List String),
      List.Perm (xs.foldl (fun a x => insertAsc x a) acc) (acc ++ xs) by
    simpa using h l []
  intro xs
  induction xs with
  | nil => intro acc; simp
  | cons x xs ih =>
    intro acc
    simp only [List.foldl_cons]
    refine (ih (insertAsc x acc)).trans ?_
    have h1 : List.Perm (insertAsc x acc ++ xs) ((x :: acc) ++ xs) :=
      List.Perm.append (insertAsc_perm x acc) (List.Perm.refl xs)
    exact h1.trans List.perm_middle.symm

theorem insertDesc_perm {α : Type} (key : α → Nat) (x : α) :
    ∀ l : List α, List.Perm (insertDesc key x l) (x :: l) := by
  intro l
  induction l with
  | nil => simp [insertDesc]
  | cons y ys ih =>
    by_cases h : key y < key x
    · simp [insertDesc, h]
    · simp only [insertDesc, if_neg h]
      exact (ih.cons y).trans (List.Perm.swap x y ys)

theorem sortDescStable_perm {α : Type} (key : α → Nat) (l : List α) :
    List.Perm (sortDescStable key l) l := by
  unfold sortDescStable
  suffices h : ∀ (xs acc : List α),
      List.Perm (xs.foldl (fun a x => insertDesc key x a) acc) (acc ++ xs) by
    simpa using h l []
  intro xs
  induction xs with
  | nil => intro acc; simp
  | cons x xs ih =>
    intro acc
    simp only [List.foldl_cons]
    refine (ih (insertDesc key x acc)).trans ?_
    have h1 : List.Perm (insertDesc key x acc ++ xs) ((x :: acc) ++ xs) :=
      List.Perm.append (insertDesc_perm key x acc) (List.Perm.refl xs)
    exact h1.trans List.perm_middle.symm

theorem filter_flatten {β : Type} (p : β → Bool) :
    ∀ L : List (List β), (List.flatten L).filter p = (L.map (List.filter p)).flatten := by
  intro L
  induction L with
  | nil => rfl
  | cons l ls ih => simp [List.filter_append, ih]

theorem mem_enumFrom_snd {β : Type} :
    ∀ (l : List β) (n : Nat) (p : Nat × β), p ∈ List.enumFrom n l → p.2 ∈ l := by
  intro l
  induction l with
  | nil => intro n p h; exact absurd h (List.not_mem_nil p)
  | cons x xs ih =>
    intro n p h
    rcases List.mem_cons.mp h with rfl | h2
    · exact List.mem_cons.mpr (Or.inl rfl)
    · exact List.mem_cons.mpr (Or.inr (ih (n + 1) p h2))

theorem exists_mem_enumFrom {β : Type} :
    ∀ (l : List β) (x : β), x ∈ l → ∀ n, ∃ i, (i, x) ∈ List.enumFrom n l := by
  intro l
  induction l with
  | nil => intro x h; exact absurd h (List.not_mem_nil x)
  | cons y ys ih =>
    intro x h n
    rcases List.mem_cons.mp h with rfl | h2
    · exact ⟨n, List.mem_cons.mpr (Or.inl rfl)⟩
    · obtain ⟨i, hi⟩ := ih x h2 (n + 1)
      exact ⟨i, List.mem_cons.mpr (Or.inr hi)⟩

theorem flatten_map_ite {β : Type} (T : String → List β) (bn : String) :
    ∀ ks : List String, ks.Nodup →
      (ks.map (fun k => if k = bn then T k else [])).flatten =
        if bn ∈ ks then T bn else [] := by
  intro ks
  induction ks with
  | nil => intro _; simp
  | cons k ks ih =>
    intro hnd
    rw [List.nodup_cons] at hnd
    by_cases hk : k = bn
    · subst hk
      simp only [List.map_cons, List.flatten_cons, if_pos rfl, List.mem_cons,
        true_or, if_true]
      rw [ih hnd.2, if_neg hnd.1]
      simp
    · simp only [List.map_cons, List.flatten_cons, if_neg hk, List.nil_append]
      rw [ih hnd.2]
      by_cases hb : bn ∈ ks
      · rw [if_pos hb, if_pos (List.mem_cons.mpr (Or.inr hb))]
      · rw [if_neg hb, if_neg (fun h => by
          rcases List.mem_cons.mp h with h1 | h2
          · exact hk h1.symm
          · exact hb h2)]

theorem rankGroup_fst_mem {α : Type} (brOf : α → Nat) (bn : String) (g : List α)
    (q : α × String) (hq : q ∈ rankGroup brOf bn g) : q.1 ∈ g := by
  unfold rankGroup at hq
  obtain ⟨pr, hpr, hmap⟩ := List.mem_map.mp hq
  have h1 : pr.2 ∈ sortDescStable brOf g := mem_enumFrom_snd _ 0 pr hpr
  have h2 : q.1 = pr.2 := by rw [← hmap]
  rw [h2]
  exact ((sortDescStable_perm brOf g).mem_iff).mp h1

theorem filter_of_map {α β : Type} (f : β → α) (p : α → Bool) :
    ∀ l : List β, (l.map f).filter p = (l.filter (fun x => p (f x))).map f := by
  intro l
  induction l with
  | nil => rfl
  | cons x xs ih =>
    simp only [List.map_cons, List.filter_cons]
    cases hpx : p (f x)
    · simpa [hpx] using ih
    · simp [hpx, ih]

theorem organizeCountry_filter {α : Type} (nameOf : α → String) (brOf : α → Nat)
    (streams : List α) (bn : String) :
    (organizeCountry nameOf brOf streams).filter
        (fun q => canonicalBase (nameOf q.1) == bn) =
      rankGroup brOf bn (streams.filter (fun x => canonicalBase (nameOf x) == bn)) := by
  unfold organizeCountry
  dsimp only
  rw [filter_flatten, List.map_map]
  have hnd : (sortStrings ((groupByKey (fun x => canonicalBase (nameOf x)) streams).map
      Prod.fst)).Nodup :=
    ((sortStrings_perm _).nodup_iff).mpr (groupByKey_keys_nodup _ streams)
  have hmapeq : (sortStrings ((groupByKey (fun x => canonicalBase (nameOf x)) streams).map
        Prod.fst)).map
      ((List.filter (fun q => canonicalBase (nameOf q.1) == bn)) ∘
        (fun k => rankGroup brOf k
          (lookupGroup (groupByKey (fun x => canonicalBase (nameOf x)) streams) k))) =
      (sortStrings ((groupByKey (fun x => canonicalBase (nameOf x)) streams).map
        Prod.fst)).map
      (fun k => if k = bn then rankGroup brOf k
          (lookupGroup (groupByKey (fun x => canonicalBase (nameOf x)) streams) k)
        else []) := by
    refine List.map_congr_left ?_
    intro k hk
    by_cases hkbn : k = bn
    · subst hkbn
      simp only [Function.comp, if_pos rfl]
      refine List.filter_eq_self.mpr ?_
      intro q hq
      have h1 : q.1 ∈ lookupGroup (groupByKey (fun x => canonicalBase (nameOf x)) streams) k :=
        rankGroup_fst_mem brOf k _ q hq
      rw [lookupGroup_groupByKey] at h1
      exact (List.mem_filter.mp h1).2
    · simp only [Function.comp, if_neg hkbn]
      refine List.filter_eq_nil_iff.mpr ?_
      intro q hq hcon
      have h1 : q.1 ∈ lookupGroup (groupByKey (fun x => canonicalBase (nameOf x)) streams) k :=
        rankGroup_fst_mem brOf k _ q hq
      rw [lookupGroup_groupByKey] at h1
      have h2 := (List.mem_filter.mp h1).2
      exact hkbn ((eq_of_beq h2).symm.trans (eq_of_beq hcon))
  rw [hmapeq, flatten_map_ite
    (fun k => rankGroup brOf k
      (lookupGroup (groupByKey (fun x => canonicalBase (nameOf x)) streams) k)) bn _ hnd]
  by_cases hmem : bn ∈ sortStrings ((groupByKey (fun x => canonicalBase (nameOf x)) streams).map
      Prod.fst)
  · rw [if_pos hmem, lookupGroup_groupByKey]
  · rw [if_neg hmem]
    have hnil : lookupGroup (groupByKey (fun x => canonicalBase (nameOf x)) streams) bn = [] :=
      lookupGroup_not_mem bn _ (fun hh => hmem (((sortStrings_perm _).mem_iff).mpr hh))
    rw [← lookupGroup_groupByKey (fun x => canonicalBase (nameOf x)) bn streams, hnil]
    rfl

theorem insertDesc_pairwise {α : Type} (key : α → Nat) (x : α) :
    ∀ l : List α, List.Pairwise (fun a b => key b ≤ key a) l →
      List.Pairwise (fun a b => key b ≤ key a) (insertDesc key x l) := by
  intro l
  induction l with
  | nil => intro _; simp [insertDesc]
  | cons y ys ih =>
    intro hp
    rw [List.pairwise_cons] at hp
    unfold insertDesc
    by_cases hk : key y < key x
    · rw [if_pos hk]
      refine List.pairwise_cons.mpr ⟨?_, List.pairwise_cons.mpr hp⟩
      intro b hb
      rcases List.mem_cons.mp hb with rfl | hb2
      · exact Nat.le_of_lt hk
      · exact Nat.le_trans (hp.1 b hb2) (Nat.le_of_lt hk)
    · rw [if_neg hk]
      refine List.pairwise_cons.mpr ⟨?_, ih hp.2⟩
      intro b hb
      have hb3 := ((insertDesc_perm key x ys).mem_iff).mp hb
      rcases List.mem_cons.mp hb3 with rfl | hb4
      · exact Nat.not_lt.mp hk
      · exact hp.1 b hb4

theorem sortDescStable_pairwise {α : Type} (key : α → Nat) (l : List α) :
    List.Pairwise (fun a b => key b ≤ key a) (sortDescStable key l) := by
  unfold sortDescStable
  suffices h : ∀ (xs acc : List α), List.Pairwise (fun a b => key b ≤ key a) acc →
      List.Pairwise (fun a b => key b ≤ key a)
        (xs.foldl (fun a x => insertDesc key x a) acc) by
    exact h l [] (by simp)
  intro xs
  induction xs with
  | nil => intro acc h; simpa using h
  | cons x xs ih => intro acc h; exact ih _ (insertDesc_pairwise key x acc h)

theorem pairwise_enumFrom_snd {α : Type} (R : α → α → Prop) :
    ∀ (l : List α) (n : Nat), List.Pairwise R l →
      List.Pairwise (fun a b => R a.2 b.2) (List.enumFrom n l) := by
  intro l
  induction l with
  | nil => intro n _; simp [List.enumFrom]
  | cons x xs ih =>
    intro n hp
    rw [List.pairwise_cons] at hp
    simp only [List.enumFrom]
    refine List.pairwise_cons.mpr ⟨?_, ih (n + 1) hp.2⟩
    intro b hb
    exact hp.1 b.2 (mem_enumFrom_snd xs (n + 1) b hb)

/-- C5: in every country bucket the organizer emits, the entries of a
base name `bn` are exactly the streams of that country and base name
sorted non-increasingly by the integer parsed from the leading digits of
`video_bitrate` (absent mapping to `"0"`, non-digit-led values such as
"Unknown" to 0), the rank-0 entry getting `final_name = bn` and rank
`k > 0` getting `bn ++ " backup " ++ k` (`labelName`); in particular the
bucket's bitrate values are non-increasing along each base-name group. -/
theorem c5_ranking (ws : List StreamResult) (c bn : String) (cl : List StreamResult)
    (hmem : (c, cl) ∈ organize_streams_by_country_and_bitrate ws) :
    cl.filter (fun r => canonicalBase r.info.channel_name == bn) =
      (sortDescStable brValOf ((ws.filter (fun r => r.country == c)).filter
          (fun r => canonicalBase r.info.channel_name == bn))).enum.map
        (fun pr => { pr.2 with final_name := some (labelName bn pr.1) }) ∧
    List.Pairwise (fun a b => brValOf b ≤ brValOf a)
      (cl.filter (fun r => canonicalBase r.info.channel_name == bn)) := by
  unfold organize_streams_by_country_and_bitrate organizeCore at hmem
  obtain ⟨q, hq, heqg⟩ := List.mem_map.mp hmem
  obtain ⟨p, hp, heqf⟩ := List.mem_map.mp hq
  rw [← heqf] at heqg
  dsimp only at heqg
  rw [Prod.mk.injEq] at heqg
  obtain ⟨hc, hcl⟩ := heqg
  subst hcl
  have hp2 : p.2 = ws.filter (fun r => r.country == c) := by
    have h1 := mem_lookupGroup_of_nodup p.1 p.2
      (groupByKey (fun r => r.country) ws) hp
      (groupByKey_keys_nodup (fun r => r.country) ws)
    rw [lookupGroup_groupByKey] at h1
    rw [← h1, hc]
  have key : ((organizeCountry (fun r => r.info.channel_name) brValOf p.2).map
        (fun q => { q.1 with final_name := some q.2 })).filter
        (fun r => canonicalBase r.info.channel_name == bn) =
      (sortDescStable brValOf ((ws.filter (fun r => r.country == c)).filter
          (fun r => canonicalBase r.info.channel_name == bn))).enum.map
        (fun pr => { pr.2 with final_name := some (labelName bn pr.1) }) := by
    rw [filter_of_map]
    dsimp only
    rw [organizeCountry_filter (fun r => r.info.channel_name) brValOf p.2 bn]
    unfold rankGroup
    rw [List.map_map, hp2]
    rfl
  exact ⟨key, by
    rw [key, List.pairwise_map]
    exact pairwise_enumFrom_snd (fun a b => brValOf b ≤ brValOf a) _ 0
      (sortDescStable_pairwise brValOf _)⟩

theorem c5_witness :
    ([{ espnRecord with final_name := some "ESPN" }].filter
        (fun r => canonicalBase r.info.channel_name == "ESPN") =
      (sortDescStable brValOf
          (([espnRecord].filter (fun r => r.country == "US")).filter
            (fun r => canonicalBase r.info.channel_name == "ESPN"))).enum.map
        (fun pr => { pr.2 with final_name := some (labelName "ESPN" pr.1) })) ∧
    List.Pairwise (fun a b => brValOf b ≤ brValOf a)
      ([{ espnRecord with final_name := some "ESPN" }].filter
        (fun r => canonicalBase r.info.channel_name == "ESPN")) :=
  c5_ranking [espnRecord] "US" "ESPN" [{ espnRecord with final_name := some "ESPN" }]
    (by decide)

theorem getD_set_self {α : Type} [Inhabited α] :
    ∀ (l : List α) (i : Nat) (v : α), i < l.length →
      (l.set i v).getD i default = v := by
  intro l
  induction l with
  | nil => intro i v h; exact absurd h (Nat.not_lt_zero i)
  | cons x xs ih =>
    intro i v h
    cases i with
    | zero => rfl
    | succ j =>
      simp only [List.set, List.getD_cons_succ]
      exact ih j v (Nat.lt_of_succ_lt_succ h)

theorem getD_set_ne {α : Type} [Inhabited α] :
    ∀ (l : List α) (i j : Nat) (v : α), i ≠ j →
      (l.set i v).getD j default = l.getD j default := by
  intro l
  induction l with
  | nil => intro i j v _; rfl
  | cons x xs ih =>
    intro i j v h
    cases i with
    | zero =>
      cases j with
      | zero => exact absurd rfl h
      | succ j2 => simp only [List.set, List.getD_cons_succ]
    | succ i2 =>
      cases j with
      | zero => simp only [List.set, List.getD_cons_zero]
      | succ j2 =>
        simp only [List.set, List.getD_cons_succ]
        exact ih i2 j2 v (fun hh => h (by rw [hh]))

theorem foldl_setFinalName_isSome (i : Nat) :
    ∀ (writes : List (Nat × String)) (h : List StreamResult),
      i < h.length →
      ((∃ nm, (i, nm) ∈ writes) ∨ ((h.getD i default).final_name.isSome = true)) →
      (((writes.foldl (fun h' p => setFinalName h' p.1 p.2) h).getD
          i default).final_name.isSome = true) := by
  intro writes
  induction writes with
  | nil =>
    intro h hlen hcase
    rcases hcase with ⟨nm, hmem⟩ | hs
    · exact absurd hmem (List.not_mem_nil _)
    · simpa using hs
  | cons w ws ih =>
    intro h hlen hcase
    simp only [List.foldl_cons]
    refine ih (setFinalName h w.1 w.2) ?_ ?_
    · unfold setFinalName
      simpa [List.length_set] using hlen
    · rcases hcase with ⟨nm, hmem⟩ | hs
      · rcases List.mem_cons.mp hmem with heq | hmem2
        · right
          have hw1 : w.1 = i := by rw [← heq]
          unfold setFinalName
          rw [hw1, getD_set_self h i _ hlen]
          rfl
        · exact Or.inl ⟨nm, hmem2⟩
      · right
        by_cases hw : w.1 = i
        · unfold setFinalName
          rw [hw, getD_set_self h i _ hlen]
          rfl
        · unfold setFinalName
          rw [getD_set_ne h w.1 i _ hw]
          exact hs

theorem organizeCountry_covers {α : Type} (nameOf : α → String) (brOf : α → Nat)
    (streams : List α) (x : α) (hx : x ∈ streams) :
    ∃ nm, (x, nm) ∈ organizeCountry nameOf brOf streams := by
  have h1 : x ∈ streams.filter
      (fun y => canonicalBase (nameOf y) == canonicalBase (nameOf x)) :=
    List.mem_filter.mpr ⟨hx, by simp⟩
  have h2 : x ∈ sortDescStable brOf (streams.filter
      (fun y => canonicalBase (nameOf y) == canonicalBase (nameOf x))) :=
    ((sortDescStable_perm brOf _).mem_iff).mpr h1
  obtain ⟨j, hj⟩ := exists_mem_enumFrom _ x h2 0
  have h3 : (x, labelName (canonicalBase (nameOf x)) j) ∈
      rankGroup brOf (canonicalBase (nameOf x)) (streams.filter
        (fun y => canonicalBase (nameOf y) == canonicalBase (nameOf x))) :=
    List.mem_map.mpr ⟨(j, x), hj, rfl⟩
  rw [← organizeCountry_filter nameOf brOf streams (canonicalBase (nameOf x))] at h3
  exact ⟨labelName (canonicalBase (nameOf x)) j, List.mem_of_mem_filter h3⟩

theorem organizeCore_covers {α : Type} (countryOf nameOf : α → String) (brOf : α → Nat)
    (xs : List α) (x : α) (hx : x ∈ xs) :
    ∃ nm, (x, nm) ∈
      (((organizeCore countryOf nameOf brOf xs).map (fun p => p.2)).flatten) := by
  have hlk : lookupGroup (groupByKey countryOf xs) (countryOf x) =
      xs.filter (fun y => countryOf y == countryOf x) :=
    lookupGroup_groupByKey countryOf (countryOf x) xs
  have hxl : x ∈ lookupGroup (groupByKey countryOf xs) (countryOf x) := by
    rw [hlk]
    exact List.mem_filter.mpr ⟨hx, by simp⟩
  have hne : lookupGroup (groupByKey countryOf xs) (countryOf x) ≠ [] := by
    intro hnil
    rw [hnil] at hxl
    exact absurd hxl (List.not_mem_nil x)
  have hmemG := lookupGroup_ne_nil_mem (countryOf x) (groupByKey countryOf xs) hne
  obtain ⟨nm, hnm⟩ := organizeCountry_covers nameOf brOf _ x hxl
  refine ⟨nm, List.mem_flatten.mpr
    ⟨organizeCountry nameOf brOf
        (lookupGroup (groupByKey countryOf xs) (countryOf x)), ?_, hnm⟩⟩
  refine List.mem_map.mpr ⟨(countryOf x, organizeCountry nameOf brOf
    (lookupGroup (groupByKey countryOf xs) (countryOf x))), ?_, rfl⟩
  unfold organizeCore
  exact List.mem_map.mpr ⟨(countryOf x,
    lookupGroup (groupByKey countryOf xs) (countryOf x)), hmemG, rfl⟩

/-- C10: `organize_streams_by_country_and_bitrate` writes a
`final_name` into every record the working-stream accumulator
references (the records are mutated in place through the shared heap),
and since the stream progress map holds the same records, a later
`json.dump` of the progress map persists a `final_name` field for every
key whose record was organized. -/
theorem c10_final_name_persisted (h : List StreamResult) (refs : List Nat)
    (pm : List (String × Nat)) (k : String) (i : Nat)
    (hi : i ∈ refs) (hlen : i < h.length) (hk : (k, i) ∈ pm) :
    (((organize_refs h refs).getD i default).final_name.isSome = true) ∧
      ∃ r, (k, r) ∈ serializeProgress pm (organize_refs h refs) ∧
        r.final_name.isSome = true := by
  obtain ⟨nm, hnm⟩ := organizeCore_covers (fun j => (h.getD j default).country)
    (fun j => (h.getD j default).info.channel_name)
    (fun j => brValOf (h.getD j default)) refs i hi
  have hsome : (((organize_refs h refs).getD i default).final_name.isSome = true) := by
    unfold organize_refs
    refine foldl_setFinalName_isSome i (organizeRefWrites h refs) h hlen
      (Or.inl ⟨nm, ?_⟩)
    unfold organizeRefWrites
    exact hnm
  refine ⟨hsome, ⟨(organize_refs h refs).getD i default, ?_, hsome⟩⟩
  unfold serializeProgress
  exact List.mem_map.mpr ⟨(k, i), hk, rfl⟩

theorem c10_witness :
    ((((organize_refs [espnRecord] [0]).getD 0 default).final_name.isSome = true) ∧
      ∃ r, ("k", r) ∈ serializeProgress [("k", 0)] (organize_refs [espnRecord] [0]) ∧
        r.final_name.isSome = true) :=
  c10_final_name_persisted [espnRecord] [0] [("k", 0)] "k" 0
    (by decide) (by decide) (by decide)
